import Mathlib

/-!
# Verification of the IDAKLU stepping driver (pybammsolvers)

A shallow embedding of the core of `IDAKLUSolverOpenMP` (file
`IDAKLUSolverOpenMP.inl` and `common.hpp` of the pybammsolvers
repository) together with proofs of the specified properties.

Modelling conventions:
* `sunrealtype` (a C `double`) is modelled by `ℚ`.  None of the verified
  code performs rounding-sensitive arithmetic: the driver moves, compares
  and stores values, and the sensitivity staging performs exact
  multiply-accumulate whose algebraic shape is what the spec describes.
* The SUNDIALS integrator (`IDASolve`, `IDAGetDky`, `IDACalcIC`,
  `IDAReInit`, …) is an opaque back-end.  It is modelled by a `Backend`
  record of uninterpreted functions over an abstract session type `σ`,
  with the documented IDA contract stated as explicit hypotheses
  (`BackendContract`) where a theorem needs it.
* Mutation becomes explicit state passing.  The recorder (`t[i_save] = …`,
  `i_save++`) is modelled as the sequence of writes, in write order,
  which is exactly the prefix of the buffers that the assembly code at
  the end of `solve` copies out.
* `while` loops become fuel-indexed recursion (the stepping loop) or
  well-founded recursion (the interpolation catch-up loop, which is
  bounded by the schedule length).
-/

namespace Idaklu

/-- IDA status code `IDA_SUCCESS` (step completed, no stop/root). -/
def IDA_SUCCESS : Int := 0

/-- IDA status code `IDA_TSTOP_RETURN` (integration halted at the stop time). -/
def IDA_TSTOP_RETURN : Int := 1

/-- IDA status code `IDA_ROOT_RETURN` (a root of an event function was found). -/
def IDA_ROOT_RETURN : Int := 2

/-- IDA status code `IDA_ERR_FAIL`; synthesised by the driver on a duplicate
time point (`IDAKLUSolverOpenMP.inl`, line 435). -/
def IDA_ERR_FAIL : Int := -3

/-- `IDACalcIC` option: fix differential components, solve for the algebraic
components and the derivatives. -/
def IDA_YA_YDP_INIT : Int := 1

/-- `IDACalcIC` option: solve for all of `y`. -/
def IDA_Y_INIT : Int := 2

/-! ## `Initialize`: the ODE/DAE mode flag

Source (`IDAKLUSolverOpenMP<ExprSet>::Initialize`, lines 298-305):
```
is_ODE = number_of_states > 0;
for (int ii = 0; ii < number_of_states; ii++) {
  id_val[ii] = id_np_val[ii];
  is_ODE &= id_val[ii] > 0.999;
}
```
`number_of_states` equals the length of the mask array `rhs_alg_id`. -/

/-- The value of `is_ODE` computed by `Initialize` from the
differential/algebraic mask `rhs_alg_id`. -/
def initializeIsODE (rhs_alg_id : List ℚ) : Bool :=
  rhs_alg_id.foldl (fun acc v => acc && decide (v > 999/1000))
    (decide (0 < rhs_alg_id.length))

/-! ## `ConsistentInitialization` (lines 577-613)

The working vectors `yy`, `yp`, `y_cache` of the integrator handle; the
residual callback `residual_eval` is the opaque function `F` with
`F t y yp = ` the residual vector, and `IDACalcIC` is an opaque
state transformer. -/

/-- The working `N_Vector`s of the solver that consistent initialization
reads and writes. -/
structure IntVectors where
  yy : List ℚ
  yp : List ℚ
  y_cache : List ℚ
  deriving DecidableEq, Repr

/-- `ConsistentInitializationODE` (lines 600-613): zero the scratch vector
`y_cache` and overwrite `yp` with the residual evaluated at
`(t_val, yy, y_cache)`.  `n` is `number_of_states`, `F` the residual
callback `residual_eval`. -/
def ConsistentInitializationODE (F : ℚ → List ℚ → List ℚ → List ℚ) (n : ℕ)
    (t_val : ℚ) (s : IntVectors) : IntVectors :=
  let cache := List.replicate n (0 : ℚ)
  { yy := s.yy, y_cache := cache, yp := F t_val s.yy cache }

/-- `ConsistentInitializationDAE` (lines 591-598): delegate to the back-end
`IDACalcIC(ida_mem, icopt, t_next)`, an opaque transformer of the working
vectors. -/
def ConsistentInitializationDAE (calcIC : Int → ℚ → IntVectors → IntVectors)
    (t_next : ℚ) (icopt : Int) (s : IntVectors) : IntVectors :=
  calcIC icopt t_next s

/-- `ConsistentInitialization` (lines 577-589): dispatch on `is_ODE` and the
requested mode. -/
def ConsistentInitialization (isODE : Bool)
    (F : ℚ → List ℚ → List ℚ → List ℚ) (n : ℕ)
    (calcIC : Int → ℚ → IntVectors → IntVectors)
    (t_val t_next : ℚ) (icopt : Int) (s : IntVectors) : IntVectors :=
  if isODE && decide (icopt = IDA_YA_YDP_INIT) then
    ConsistentInitializationODE F n t_val s
  else
    ConsistentInitializationDAE calcIC t_next icopt s

/-! ## Output staging: `SetStepOutputSensitivities` (lines 736-770)

An output expression (`Expression` in the source) exposes a call operator
producing its `nnz_out()` stored values, together with sparse index
vectors `get_row()` / `get_col()`.  The time/state/inputs arguments are
folded into `eval`. -/

/-- An opaque user expression: evaluation to its sparse stored values, plus
its sparsity index vectors. -/
structure Expression where
  eval : ℚ → List ℚ → List ℚ
  get_row : List ℕ
  get_col : List ℕ

instance : Inhabited Expression := ⟨⟨fun _ _ => [], [], []⟩⟩

/-- Densification of the sparse row `dvar_dp` (lines 754-759):
```
for (k..) dens_dvar_dp[k]=0;
for (k < nnz) dens_dvar_dp[dvar_dp->get_row()[k]] = res_dvar_dp[k];
```
-/
def densifyRow (number_of_parameters : ℕ) (rows : List ℕ) (vals : List ℚ) :
    List ℚ :=
  (rows.zip vals).foldl (fun dens rv => dens.set rv.1 rv.2)
    (List.replicate number_of_parameters (0 : ℚ))

/-- The value stored into `yS[i_save][paramk][dvar_k]` by
`SetStepOutputSensitivities` (lines 761-768): the cell is first assigned
the densified explicit derivative `dens_dvar_dp[paramk]` and the
chain-rule products are then accumulated onto it. -/
def sensValue (number_of_parameters : ℕ) (dvar_dy dvar_dp : Expression)
    (tval : ℚ) (y_val : List ℚ) (yS_val : List (List ℚ)) (paramk : ℕ) : ℚ :=
  let res_dvar_dy := dvar_dy.eval tval y_val
  let dens := densifyRow number_of_parameters dvar_dp.get_row
    (dvar_dp.eval tval y_val)
  (res_dvar_dy.zip dvar_dy.get_col).foldl
    (fun acc vc => acc + vc.1 * ((yS_val.getD paramk []).getD vc.2 0))
    (dens.getD paramk 0)

/-- A single write into the sensitivity matrix `yS[i_save]`, viewed as a
function from (parameter index, output index) to value. -/
def writeSens (M : ℕ → ℕ → ℚ) (paramk dvar_k : ℕ) (v : ℚ) : ℕ → ℕ → ℚ :=
  fun p k => if p = paramk ∧ k = dvar_k then v else M p k

/-- `SetStepOutputSensitivities` (lines 736-770): for each output function
`dvar_k` and parameter `paramk`, write the staged sensitivity value into
the snapshot matrix `M0` (the row `yS[i_save]`, as a total function). -/
def SetStepOutputSensitivities (number_of_parameters : ℕ)
    (dvar_dy_fcns dvar_dp_fcns : List Expression)
    (tval : ℚ) (y_val : List ℚ) (yS_val : List (List ℚ))
    (M0 : ℕ → ℕ → ℚ) : ℕ → ℕ → ℚ :=
  (List.range dvar_dy_fcns.length).foldl (fun M dvar_k =>
    (List.range number_of_parameters).foldl (fun M2 paramk =>
      writeSens M2 paramk dvar_k
        (sensValue number_of_parameters (dvar_dy_fcns.getD dvar_k default)
          (dvar_dp_fcns.getD dvar_k default) tval y_val yS_val paramk)) M) M0

/-! ## Result assembly (lines 496-550) -/

/-- `ReturnVectorLength` (lines 132-159): the stored row length is the full
state dimension unless outputs-only mode is active, in which case it is
the total number of stored output entries. -/
def returnVectorLength (save_outputs_only : Bool) (number_of_states : ℕ)
    (var_nnz : List ℕ) : ℕ :=
  if !save_outputs_only then number_of_states else var_nnz.sum

/-- `length_of_final_sv_slice` (line 496). -/
def lengthOfFinalSVSlice (save_outputs_only : Bool)
    (number_of_states : ℕ) : ℕ :=
  if save_outputs_only then number_of_states else 0

/-- The `yterm_return` buffer (lines 497-501): in outputs-only mode the
first `number_of_states` entries of the working state vector are copied
out; otherwise the slice is empty.  (The byte count of the `memcpy` is
`length * sizeof(sunrealtype*)`, which equals `length` elements because
`sizeof(sunrealtype*) = sizeof(sunrealtype) = 8` on every supported
64-bit platform.) -/
def ytermReturn (save_outputs_only : Bool) (number_of_states : ℕ)
    (y_val : List ℚ) : List ℚ :=
  y_val.take (lengthOfFinalSVSlice save_outputs_only number_of_states)

/-- The sensitivity flattening loop of `solve` (lines 528-548): the triple
loop over `(idx0, idx1, idx2)` emitting `yS[i][k][j]` in row-major order,
where the axis roles depend on `save_outputs_only`.  `yS i k j` is the
recorded sensitivity of return-vector entry `j` w.r.t. parameter `k` at
snapshot `i`. -/
def assembleSens (save_outputs_only : Bool)
    (number_of_timesteps number_of_parameters length_of_return_vector : ℕ)
    (yS : ℕ → ℕ → ℕ → ℚ) : List ℚ :=
  let a0 := if save_outputs_only then number_of_timesteps else number_of_parameters
  let a1 := if save_outputs_only then length_of_return_vector else number_of_timesteps
  let a2 := if save_outputs_only then number_of_parameters else length_of_return_vector
  (List.range a0).flatMap fun idx0 =>
    (List.range a1).flatMap fun idx1 =>
      (List.range a2).map fun idx2 =>
        let i := if save_outputs_only then idx0 else idx1
        let j := if save_outputs_only then idx1 else idx2
        let k := if save_outputs_only then idx2 else idx0
        yS i k j

/-! ## The stepping driver (`solve`, lines 337-551)

The SUNDIALS session is opaque: a `Backend` over an abstract session type
`σ`.  The ghost observation `curT` (the integrator's notion of current
time) only appears in contract hypotheses, never in the driver code. -/

/-- The outcome of one `IDASolve(..., IDA_ONE_STEP)` call: the new session,
the return flag, and the reached time (written into `t_val`). -/
structure StepResult (σ : Type) where
  st : σ
  ret : Int
  tret : ℚ

/-- The opaque integrator back-end.  `solveStep s tf tstop` is
`IDASolve(ida_mem, tf, &t_val, yy, yp, IDA_ONE_STEP)` with stop time
`tstop` in effect; `getdky s t` is `IDAGetDky(ida_mem, t, 0, yy)` (loads
the dense-output interpolant into the working vector); `curY` reads the
working vector `yy`; `reinit` is `ReinitializeIntegrator` (IDAReInit and,
with sensitivities, IDASensReInit); `calcIC` is `IDACalcIC`; `resetYP` is
the ODE consistent-init shortcut (overwrite `yp` with the residual at
zeroed derivative); `load` writes `(y0, yp0)` and the sensitivity
initial values into the working vectors. -/
structure Backend (σ : Type) where
  solveStep : σ → ℚ → ℚ → StepResult σ
  getdky : σ → ℚ → σ
  getsensdky : σ → ℚ → σ
  curY : σ → List ℚ
  reinit : σ → ℚ → σ
  calcIC : σ → Int → ℚ → σ
  resetYP : σ → ℚ → σ
  load : σ → List ℚ → List ℚ → List (List ℚ) → List (List ℚ) → σ
  curT : σ → ℚ

/-- `ConsistentInitialization` as it acts on the opaque session (dispatch of
lines 577-589; the two branches act through the back-end). -/
def backendConsistentInit {σ : Type} (B : Backend σ) (isODE : Bool) (s : σ)
    (t_val t_next : ℚ) (icopt : Int) : σ :=
  if isODE && decide (icopt = IDA_YA_YDP_INIT) then B.resetYP s t_val
  else B.calcIC s icopt t_next

/-- The immutable inputs of one `solve` call that steer the loop. -/
structure SolveParams where
  t_eval : List ℚ
  t_interp : List ℚ
  save_adaptive_steps : Bool
  save_interp_steps : Bool
  sensitivity : Bool
  calc_ic : Bool
  init_all_y_ic : Bool
  isODE : Bool

/-- The mutable state of the stepping loop.  `recbuf` is the sequence of
recorder writes `SetStep` has performed, in write order (time paired with
the staged row); `i_save` of the source equals `rec.length`. -/
structure DriverState (σ : Type) where
  ints : σ
  t_val : ℚ
  t_prev : ℚ
  i_eval : ℕ
  t_eval_next : ℚ
  i_interp : ℕ
  t_interp_next : ℚ
  recbuf : List (ℚ × List ℚ)
  retval : Int
  done : Bool

/-- `SetStep` (lines 615-635): record the staged snapshot at `tval` from the
current working vector and advance the write cursor. -/
def setStepRecord {σ : Type} (B : Backend σ) (s : σ) (tval : ℚ)
    (recbuf : List (ℚ × List ℚ)) : List (ℚ × List ℚ) :=
  recbuf ++ [(tval, B.curY s)]

/-- The dense-output fetch inside the interpolation loop (lines 654-657):
`IDAGetDky(t_interp_next, 0, yy)` and, with sensitivities enabled,
`IDAGetSensDky(t_interp_next, 0, yyS)`. -/
def interpFetch {σ : Type} (B : Backend σ) (P : SolveParams)
    (ds : DriverState σ) : σ :=
  if P.sensitivity then
    B.getsensdky (B.getdky ds.ints ds.t_interp_next) ds.t_interp_next
  else B.getdky ds.ints ds.t_interp_next

/-- `SetStepInterp` (lines 638-669): while interpolation points at or before
`t_val` remain, fetch the dense output there, record it, and advance the
interpolation cursor.  The loop guard `i_interp <= (t_interp.size()-1)`
uses the same truncated subtraction as the unsigned C++ expression does
for nonempty schedules (the driver only enters with a nonempty
schedule).  When the cursor reaches the end of the schedule the loop
breaks before refreshing `t_interp_next` (line 663). -/
def SetStepInterp {σ : Type} (B : Backend σ) (P : SolveParams)
    (ds : DriverState σ) : DriverState σ :=
  if h : ds.i_interp ≤ P.t_interp.length - 1 ∧ ds.t_interp_next ≤ ds.t_val then
    if ds.i_interp + 1 = P.t_interp.length then
      { ds with ints := interpFetch B P ds,
                recbuf := setStepRecord B (interpFetch B P ds)
                  ds.t_interp_next ds.recbuf,
                i_interp := ds.i_interp + 1 }
    else
      SetStepInterp B P
        { ds with ints := interpFetch B P ds,
                  recbuf := setStepRecord B (interpFetch B P ds)
                    ds.t_interp_next ds.recbuf,
                  i_interp := ds.i_interp + 1,
                  t_interp_next := P.t_interp.getD (ds.i_interp + 1) 0 }
  else ds
  termination_by P.t_interp.length + 1 - ds.i_interp
  decreasing_by
    omega

/-- The working-vector restore after interpolation (lines 463-469):
`IDAGetDky(t_val, 0, yy)` and, with sensitivities, `IDAGetSensDky`. -/
def restoreFetch {σ : Type} (B : Backend σ) (P : SolveParams)
    (ds : DriverState σ) : σ :=
  if P.sensitivity then B.getsensdky (B.getdky ds.ints ds.t_val) ds.t_val
  else B.getdky ds.ints ds.t_val

/-- The snapshot block of the loop body (lines 462-477): when the step hit
an adaptive save, a stop time or an event, restore the working vectors if
interpolation just ran, and record the state at `t_val`.  The hit
classification reads the step status held in `retval`. -/
def recordPhase {σ : Type} (B : Backend σ) (P : SolveParams)
    (hit_tinterp : Bool) (ds : DriverState σ) : DriverState σ :=
  let hit_teval := decide (ds.retval = IDA_TSTOP_RETURN)
  let hit_event := decide (ds.retval = IDA_ROOT_RETURN)
  let hit_adaptive := P.save_adaptive_steps && decide (ds.retval = IDA_SUCCESS)
  if hit_adaptive || hit_teval || hit_event then
    { ds with ints := if hit_tinterp then restoreFetch B P ds else ds.ints,
              recbuf := setStepRecord B
                (if hit_tinterp then restoreFetch B P ds else ds.ints)
                ds.t_val ds.recbuf }
  else ds

/-- The loop-exit / continuation dispatch of the loop body (lines 479-493):
exit on the final time or an event; on an intermediate stop time advance
the eval cursor, set the next stop time, reinitialize and re-run
consistent initialization; finally update `t_prev`. -/
def advancePhase {σ : Type} (B : Backend σ) (P : SolveParams) (tf : ℚ)
    (ds : DriverState σ) : DriverState σ ⊕ DriverState σ :=
  let hit_teval := decide (ds.retval = IDA_TSTOP_RETURN)
  let hit_event := decide (ds.retval = IDA_ROOT_RETURN)
  let hit_final_time := decide (tf ≤ ds.t_val) ||
    (hit_teval && decide (ds.i_eval = P.t_eval.length))
  if hit_final_time || hit_event then
    .inr { ds with done := true }
  else if hit_teval then
    .inl { ds with
      ints := backendConsistentInit B P.isODE (B.reinit ds.ints ds.t_val)
        ds.t_val (P.t_eval.getD (ds.i_eval + 1) 0) IDA_YA_YDP_INIT,
      i_eval := ds.i_eval + 1,
      t_eval_next := P.t_eval.getD (ds.i_eval + 1) 0,
      t_prev := ds.t_val }
  else
    .inl { ds with t_prev := ds.t_val }

/-- The state update after a successful `IDASolve` call: the session
advances and `t_val` / `retval` take the returned values (lines 427,
and the classification that follows). -/
def stepUpdate {σ : Type} (ds : DriverState σ) (r : StepResult σ) :
    DriverState σ :=
  { ds with ints := r.st, t_val := r.tret, retval := r.ret }

/-- The sensitivity fetch after a step (lines 445-447):
`IDAGetSensDky(t_val, 0, yyS)` when sensitivities are enabled. -/
def sensPhase {σ : Type} (B : Backend σ) (P : SolveParams)
    (ds : DriverState σ) : DriverState σ :=
  if P.sensitivity then { ds with ints := B.getsensdky ds.ints ds.t_val }
  else ds

/-- The `hit_tinterp` classification (line 439). -/
def hitTinterp {σ : Type} (P : SolveParams) (ds : DriverState σ) : Bool :=
  P.save_interp_steps && decide (ds.t_prev ≤ ds.t_interp_next)

/-- The interpolation catch-up block (lines 449-460). -/
def interpPhase {σ : Type} (B : Backend σ) (P : SolveParams)
    (hit_tinterp : Bool) (ds : DriverState σ) : DriverState σ :=
  if hit_tinterp then SetStepInterp B P ds else ds

/-- One iteration of the stepping loop (lines 425-494).  `.inr` means the
loop exited in this iteration (`break`), `.inl` that it continues. -/
def loopIter {σ : Type} (B : Backend σ) (P : SolveParams) (tf : ℚ)
    (ds : DriverState σ) : DriverState σ ⊕ DriverState σ :=
  let r := B.solveStep ds.ints tf ds.t_eval_next
  if r.ret < 0 then
    -- failed: break with the back-end status, recorder untouched
    .inr { ds with ints := r.st, t_val := r.tret, retval := r.ret, done := true }
  else if ds.t_prev = r.tret then
    -- duplicate time point: synthesise IDA_ERR_FAIL and break
    .inr { ds with ints := r.st, t_val := r.tret, retval := IDA_ERR_FAIL,
                   done := true }
  else
    advancePhase B P tf
      (recordPhase B P (hitTinterp P (stepUpdate ds r))
        (interpPhase B P (hitTinterp P (stepUpdate ds r))
          (sensPhase B P (stepUpdate ds r))))

/-- The stepping loop, run for at most `fuel` iterations.  A state with
`done = true` is one the loop exited from by itself. -/
def solveLoop {σ : Type} (B : Backend σ) (P : SolveParams) (tf : ℚ) :
    ℕ → DriverState σ → DriverState σ
  | 0, ds => ds
  | fuel + 1, ds =>
    match loopIter B P tf ds with
    | .inr ds1 => ds1
    | .inl ds1 => solveLoop B P tf fuel ds1

/-- The preamble of `solve` (lines 349-421): load the initial data, perform
consistent initialization, prime the schedule cursors, record the initial
snapshot, and set the first stop time. -/
def solveInit {σ : Type} (B : Backend σ) (P : SolveParams) (s0 : σ)
    (y0 yp0 : List ℚ) (yS0 ypS0 : List (List ℚ)) : DriverState σ :=
  let t0 := P.t_eval.headD 0
  let t_eval_next := P.t_eval.getD 1 0
  let sA := B.load s0 y0 yp0 yS0 ypS0
  let sB := B.reinit sA t0
  let init_type := if P.init_all_y_ic then IDA_Y_INIT else IDA_YA_YDP_INIT
  let sC := if P.calc_ic then
      backendConsistentInit B P.isODE sB t0 t_eval_next init_type
    else sB
  let sD := if P.sensitivity then B.getsensdky sC t0 else sC
  { ints := sD, t_val := t0, t_prev := t0, i_eval := 1,
    t_eval_next := t_eval_next, i_interp := 0,
    t_interp_next := if P.save_interp_steps then P.t_interp.getD 0 0 else 0,
    recbuf := setStepRecord B sD t0 [],
    retval := IDA_SUCCESS, done := false }

/-- A full `solve`: preamble followed by the stepping loop (with `fuel`
bounding the number of iterations; the real loop terminates because the
integrator advances, which is part of the back-end contract). -/
def solveRun {σ : Type} (B : Backend σ) (P : SolveParams) (s0 : σ)
    (y0 yp0 : List ℚ) (yS0 ypS0 : List (List ℚ)) (fuel : ℕ) : DriverState σ :=
  solveLoop B P (P.t_eval.getLastD 0) fuel (solveInit B P s0 y0 yp0 yS0 ypS0)

/-- The relevant fields of the `SolutionData` value built at lines 496-550. -/
structure SolutionDataModel where
  flag : Int
  number_of_timesteps : ℕ
  t_return : List ℚ
  y_return : List ℚ
  yterm_return : List ℚ

/-- The result assembly at the end of `solve` (lines 496-550): copy the
first `i_save` recorder entries into fresh buffers, together with the
status flag and the optional terminal-state slice.  This is a total
function: it cannot throw, whatever the status flag is. -/
def assembleSolution {σ : Type} (B : Backend σ) (save_outputs_only : Bool)
    (number_of_states : ℕ) (ds : DriverState σ) : SolutionDataModel :=
  { flag := ds.retval,
    number_of_timesteps := ds.recbuf.length,
    t_return := ds.recbuf.map Prod.fst,
    y_return := (ds.recbuf.map Prod.snd).flatten,
    yterm_return := ytermReturn save_outputs_only number_of_states
      (B.curY ds.ints) }

/-! ## `csc_csr` (`common.hpp`, lines 50-75)

```
template<typename T1, typename T2>
void csc_csr(const sunrealtype f[], const T1 c[], const T1 r[],
             sunrealtype nf[], T2 nc[], T2 nr[], int N, int cols) { ... }
```
`f` is the data vector (`N` entries), `c` the per-entry index array
(`N` entries, used as counting-sort keys), `r` the index-pointer array
(`cols+1` entries, expanded into the per-entry major index `rr`).  The
output is `(nf, nc, nr)`: the permuted data, the new index-pointer array,
and the new index array. -/

/-- The expansion of the index-pointer array `r` into the per-entry major
index (`rr[k++] = i`, lines 57-63).  The `k == N` break is the `take N`;
the `i = cols` pass of the outer loop reads `r[cols+1]`, which for the
`cols+1`-entry pointer array is out of bounds in C++ and is modelled as
the default 0, making the pass empty — exactly what the break achieves on
valid input. -/
def buildRR (r : List ℕ) (N cols : ℕ) : List ℕ :=
  ((List.range (cols + 1)).flatMap fun i =>
    List.replicate (r.getD (i + 1) 0 - r.getD i 0) i).take N

/-- The counting pass (lines 64-65): `nc[c[i]+1]++` over all entries,
starting from the zeroed array of `cols+1` counters. -/
def countPass (c : List ℕ) (cols : ℕ) : List ℕ :=
  c.foldl (fun nc ci => nc.set (ci + 1) (nc.getD (ci + 1) 0 + 1))
    (List.replicate (cols + 1) 0)

/-- The prefix-sum pass (lines 66-67): `nc[i] += nc[i-1]` for `i = 1..cols`. -/
def prefixPass (nc : List ℕ) (cols : ℕ) : List ℕ :=
  (List.range' 1 cols).foldl (fun a i => a.set i (a.getD i 0 + a.getD (i - 1) 0)) nc

/-- The placement pass (lines 68-74): scatter each entry `i` to position
`nn[c[i]]`, bumping the per-key cursor, writing data and the expanded
major index.  State is `(nn, nf, nr)`. -/
def placePass (f : List ℚ) (c rr : List ℕ) (nc : List ℕ) (N : ℕ) :
    List ℚ × List ℕ :=
  let st := (List.range N).foldl
    (fun (st : List ℕ × List ℚ × List ℕ) i =>
      let x := st.1.getD (c.getD i 0) 0
      (st.1.set (c.getD i 0) (x + 1),
       st.2.1.set x (f.getD i 0),
       st.2.2.set x (rr.getD i 0)))
    (nc, List.replicate N (0 : ℚ), List.replicate N 0)
  (st.2.1, st.2.2)

/-- `csc_csr` (`common.hpp`, lines 50-75): returns `(nf, nc, nr)` — the
permuted data vector, the new index-pointer array, and the new index
array. -/
def csc_csr (f : List ℚ) (c r : List ℕ) (N cols : ℕ) :
    List ℚ × List ℕ × List ℕ :=
  let rr := buildRR r N cols
  let nc := prefixPass (countPass c cols) cols
  let fr := placePass f c rr nc N
  (fr.1, nc, fr.2)

/-- The number of entries of the index array `c` whose value is below
`v` — the value the prefix-summed counter array holds at `v`. -/
def cntLt (c : List ℕ) (v : ℕ) : ℕ := c.countP (fun x => decide (x < v))

/-- The number of entries before `i` carrying the same index value as
entry `i`. -/
def rnk (c : List ℕ) (i : ℕ) : ℕ :=
  (List.range i).countP (fun j => decide (c.getD j 0 = c.getD i 0))

/-- The slot the counting-sort placement of `csc_csr` sends entry `i`
to: the start of its value group plus its rank within the group. -/
def slot (c : List ℕ) (i : ℕ) : ℕ := cntLt c (c.getD i 0) + rnk c i

/-! ## Concrete instances used to evaluate the theorems below -/

/-- A degenerate back-end whose step always returns status `ret` at time
`tret`; used to evaluate driver theorems on concrete inputs. -/
def constBackend (ret : Int) (tret : ℚ) : Backend Unit :=
  { solveStep := fun _ _ _ => ⟨(), ret, tret⟩,
    getdky := fun s _ => s,
    getsensdky := fun s _ => s,
    curY := fun _ => [1, 2],
    reinit := fun s _ => s,
    calcIC := fun s _ _ => s,
    resetYP := fun s _ => s,
    load := fun s _ _ _ _ => s,
    curT := fun _ => 0 }

/-- A small concrete solve request. -/
def sampleParams : SolveParams :=
  { t_eval := [0, 1], t_interp := [],
    save_adaptive_steps := false, save_interp_steps := false,
    sensitivity := false, calc_ic := false, init_all_y_ic := false,
    isODE := false }

/-- A small concrete mid-loop driver state. -/
def sampleDriverState : DriverState Unit :=
  { ints := (), t_val := 5, t_prev := 5, i_eval := 1, t_eval_next := 1,
    i_interp := 0, t_interp_next := 0, recbuf := [(0, [1, 2])],
    retval := 0, done := false }

/-- The sequence of snapshot times held by the recorder. -/
def recTimes {σ : Type} (ds : DriverState σ) : List ℚ :=
  ds.recbuf.map Prod.fst

/-- No three consecutive recorded times are equal: equal consecutive times
come at most in back-to-back pairs. -/
def NoTriple (l : List ℚ) : Prop :=
  ∀ n, n + 2 < l.length →
    ¬(l.getD n 0 = l.getD (n + 1) 0 ∧ l.getD (n + 1) 0 = l.getD (n + 2) 0)

/-- The last two entries of the list exist and are equal. -/
def PairEnd (l : List ℚ) : Prop :=
  2 ≤ l.length ∧ l.getD (l.length - 2) 0 = l.getD (l.length - 1) 0

/-- The documented contract of the SUNDIALS IDA back-end, stated over the
opaque session.  `curT` is the integrator's current time (a ghost
observation).  With a stop time `ts` in effect, `IDASolve` in
`IDA_ONE_STEP` mode integrates forward, never steps past `ts`, reports
`IDA_TSTOP_RETURN` with `tret = ts` exactly when it halts on the stop
time, and reports roots or plain steps strictly before `ts`. -/
structure BackendContract {σ : Type} (B : Backend σ) : Prop where
  step_ret : ∀ s tf ts, 0 ≤ (B.solveStep s tf ts).ret →
    (B.solveStep s tf ts).ret = IDA_SUCCESS
    ∨ (B.solveStep s tf ts).ret = IDA_TSTOP_RETURN
    ∨ (B.solveStep s tf ts).ret = IDA_ROOT_RETURN
  step_forward : ∀ s tf ts, 0 ≤ (B.solveStep s tf ts).ret →
    B.curT s ≤ (B.solveStep s tf ts).tret
  step_curT : ∀ s tf ts, 0 ≤ (B.solveStep s tf ts).ret →
    B.curT (B.solveStep s tf ts).st = (B.solveStep s tf ts).tret
  step_le_stop : ∀ s tf ts, 0 ≤ (B.solveStep s tf ts).ret →
    (B.solveStep s tf ts).tret ≤ ts
  step_stop_exact : ∀ s tf ts, (B.solveStep s tf ts).ret = IDA_TSTOP_RETURN →
    (B.solveStep s tf ts).tret = ts
  step_lt_stop : ∀ s tf ts,
    (B.solveStep s tf ts).ret = IDA_SUCCESS
      ∨ (B.solveStep s tf ts).ret = IDA_ROOT_RETURN →
    (B.solveStep s tf ts).tret < ts
  curT_getdky : ∀ s t, B.curT (B.getdky s t) = B.curT s
  curT_getsensdky : ∀ s t, B.curT (B.getsensdky s t) = B.curT s
  curT_reinit : ∀ s t, B.curT (B.reinit s t) = t
  curT_calcIC : ∀ s i t, B.curT (B.calcIC s i t) = B.curT s
  curT_resetYP : ∀ s t, B.curT (B.resetYP s t) = B.curT s
  curT_load : ∀ s y yp yS ypS, B.curT (B.load s y yp yS ypS) = B.curT s

/-- The schedule preconditions of `solve` (spec §3): `t_eval` strictly
increasing with at least two points, `t_interp` strictly increasing with
every point at or after `t0`, and nonempty whenever interpolation saving
is requested. -/
structure ScheduleOK (P : SolveParams) : Prop where
  t_eval_two : 2 ≤ P.t_eval.length
  t_eval_sorted : P.t_eval.Pairwise (· < ·)
  t_interp_sorted : P.t_interp.Pairwise (· < ·)
  t_interp_lb : ∀ x ∈ P.t_interp, P.t_eval.getD 0 0 ≤ x
  t_interp_ne : P.save_interp_steps = true → P.t_interp ≠ []

/-- The inductive invariant of the stepping loop. -/
def DriverInv {σ : Type} (B : Backend σ) (P : SolveParams)
    (ds : DriverState σ) : Prop :=
  List.Chain' (· ≤ ·) (recTimes ds)
  ∧ NoTriple (recTimes ds)
  ∧ (∀ x ∈ recTimes ds, x ≤ ds.t_prev)
  ∧ ds.t_prev = B.curT ds.ints
  ∧ ds.i_interp ≤ P.t_interp.length
  ∧ (P.save_interp_steps = true → ds.i_interp < P.t_interp.length →
      ds.t_interp_next = P.t_interp.getD ds.i_interp 0
      ∧ ds.t_prev ≤ ds.t_interp_next)
  ∧ (PairEnd (recTimes ds) →
      P.save_interp_steps = false ∨ P.t_interp.length ≤ ds.i_interp
      ∨ (recTimes ds).getLastD 0 < ds.t_interp_next)
  ∧ 1 ≤ ds.i_eval
  ∧ ds.i_eval < P.t_eval.length
  ∧ ds.t_eval_next = P.t_eval.getD ds.i_eval 0
  ∧ (∀ j < ds.i_eval, P.t_eval.getD j 0 ∈ recTimes ds)
  ∧ (P.save_interp_steps = true →
      ∀ j < ds.i_interp, P.t_interp.getD j 0 ∈ recTimes ds)
  ∧ ds.done = false

/-- What holds of a state in which the stepping loop exited by itself:
the recorded times are monotone with at most back-to-back duplicates,
and — when the exit was not an integrator failure — the schedules are
complete over the traversed interval. -/
def ExitInv {σ : Type} (P : SolveParams) (ds' : DriverState σ) : Prop :=
  List.Chain' (· ≤ ·) (recTimes ds')
  ∧ NoTriple (recTimes ds')
  ∧ (0 ≤ ds'.retval →
      (∀ j < P.t_eval.length, P.t_eval.getD j 0 ≤ ds'.t_val →
        P.t_eval.getD j 0 ∈ recTimes ds')
      ∧ (P.save_interp_steps = true →
        ∀ j < P.t_interp.length, P.t_interp.getD j 0 ≤ ds'.t_val →
          P.t_interp.getD j 0 ∈ recTimes ds'))

/-- A toy deterministic back-end over sessions carrying just the current
time: each step jumps straight to the stop time (or fails if the stop
time is in the past).  It satisfies `BackendContract` and is used to
evaluate the loop theorems on concrete inputs. -/
def timeBackend : Backend ℚ :=
  { solveStep := fun s _ ts =>
      if s ≤ ts then ⟨ts, IDA_TSTOP_RETURN, ts⟩ else ⟨s, -1, s⟩,
    getdky := fun s _ => s,
    getsensdky := fun s _ => s,
    curY := fun s => [s],
    reinit := fun _ t => t,
    calcIC := fun s _ _ => s,
    resetYP := fun s _ => s,
    load := fun s _ _ _ _ => s,
    curT := fun s => s }

/-! ## General list lemmas used by the proofs -/

theorem foldl_and_eq (p : ℚ → Bool) (l : List ℚ) (b : Bool) :
    l.foldl (fun acc v => acc && p v) b = (b && l.all p) := by
  induction l generalizing b with
  | nil => simp
  | cons x xs ih => simp [ih, Bool.and_assoc]

theorem foldl_add_eq_add_sum {α : Type} (l : List α) (g : α → ℚ) (init : ℚ) :
    l.foldl (fun a x => a + g x) init = init + (l.map g).sum := by
  induction l generalizing init with
  | nil => simp
  | cons x xs ih => simp [ih, add_assoc]

theorem getD_append_lt {α : Type} (l₁ l₂ : List α) (n : ℕ) (d : α)
    (h : n < l₁.length) : (l₁ ++ l₂).getD n d = l₁.getD n d := by
  simp [List.getD_eq_getElem?_getD, List.getElem?_append, h]

theorem getD_append_ge {α : Type} (l₁ l₂ : List α) (n : ℕ) (d : α)
    (h : l₁.length ≤ n) : (l₁ ++ l₂).getD n d = l₂.getD (n - l₁.length) d := by
  simp [List.getD_eq_getElem?_getD, List.getElem?_append_right h]

theorem getD_range_map {α : Type} (f : ℕ → α) (L k : ℕ) (d : α) (h : k < L) :
    ((List.range L).map f).getD k d = f k := by
  rw [List.getD_eq_getElem _ _ (by simpa using h)]
  simp

theorem flatMap_range_length {α : Type} (A L : ℕ) (g : ℕ → List α) :
    (∀ a < A, (g a).length = L) → ((List.range A).flatMap g).length = A * L := by
  induction A with
  | zero => simp
  | succ A ih =>
    intro hg
    rw [List.range_succ, List.flatMap_append]
    simp only [List.length_append, List.flatMap_cons, List.flatMap_nil,
      List.append_nil]
    rw [ih (fun a ha => hg a (Nat.lt_succ_of_lt ha)), hg A (Nat.lt_succ_self A),
      Nat.succ_mul]

theorem flatMap_range_getD {α : Type} (A L : ℕ) (g : ℕ → List α) :
    ∀ (_ : ∀ x < A, (g x).length = L) (a r : ℕ) (d : α),
    a < A → r < L →
    ((List.range A).flatMap g).getD (a * L + r) d = (g a).getD r d := by
  induction A with
  | zero =>
    intro _ a r d ha _
    omega
  | succ A ih =>
    intro hg a r d ha hr
    have hg' : ∀ x < A, (g x).length = L := fun x hx => hg x (Nat.lt_succ_of_lt hx)
    rw [List.range_succ, List.flatMap_append]
    simp only [List.flatMap_cons, List.flatMap_nil, List.append_nil]
    rcases Nat.lt_or_ge a A with h | h
    · rw [getD_append_lt]
      · exact ih hg' a r d h hr
      · rw [flatMap_range_length A L g hg']
        have h2 : (a + 1) * L ≤ A * L := Nat.mul_le_mul_right L h
        rw [Nat.succ_mul] at h2
        omega
    · have ha2 : a = A := by omega
      rw [ha2]
      rw [getD_append_ge]
      · rw [flatMap_range_length A L g hg']
        congr 1
        omega
      · rw [flatMap_range_length A L g hg']
        omega

theorem foldl_writeSens_inner (nP dk : ℕ) (v : ℕ → ℚ) (M : ℕ → ℕ → ℚ)
    (p k : ℕ) :
    ((List.range nP).foldl (fun M2 pk => writeSens M2 pk dk (v pk)) M) p k
      = if p < nP ∧ k = dk then v p else M p k := by
  induction nP generalizing M with
  | zero => simp
  | succ n ih =>
    rw [List.range_succ, List.foldl_append]
    simp only [List.foldl_cons, List.foldl_nil]
    have hw : ∀ X : ℕ → ℕ → ℚ, writeSens X n dk (v n) p k
        = if p = n ∧ k = dk then v n else X p k := fun X => rfl
    rw [hw, ih]
    rcases Nat.lt_trichotomy p n with h | h | h
    · by_cases hk : k = dk
      · simp [hk, h, Nat.lt_succ_of_lt h, Nat.ne_of_lt h]
      · simp [hk]
    · subst h
      by_cases hk : k = dk
      · simp [hk, Nat.lt_succ_self]
      · simp [hk]
    · have h1 : ¬(p < n) := by omega
      have h2 : ¬(p < n + 1) := by omega
      have h3 : p ≠ n := by omega
      simp [h1, h2, h3]

theorem foldl_writeSens_outer (nK nP : ℕ) (v : ℕ → ℕ → ℚ) (M0 : ℕ → ℕ → ℚ)
    (p k : ℕ) :
    ((List.range nK).foldl (fun M dk =>
        (List.range nP).foldl (fun M2 pk => writeSens M2 pk dk (v dk pk)) M)
      M0) p k
      = if p < nP ∧ k < nK then v k p else M0 p k := by
  induction nK generalizing M0 with
  | zero => simp
  | succ n ih =>
    rw [List.range_succ, List.foldl_append]
    simp only [List.foldl_cons, List.foldl_nil]
    rw [foldl_writeSens_inner, ih]
    rcases Nat.lt_trichotomy k n with h | h | h
    · by_cases hp : p < nP
      · simp [hp, h, Nat.lt_succ_of_lt h, Nat.ne_of_lt h]
      · simp [hp]
    · subst h
      by_cases hp : p < nP
      · simp [hp, Nat.lt_succ_self]
      · simp [hp]
    · have h1 : ¬(k < n) := by omega
      have h2 : ¬(k < n + 1) := by omega
      have h3 : k ≠ n := by omega
      simp [h1, h2, h3]

/-! ## Claim C4: the `is_ODE` flag -/

/-- C4, counterexample: for an empty state vector the code computes
`is_ODE = false` (the accumulator starts from `number_of_states > 0`),
while the conjunction over all (zero) state indices is `true`.  So
`is_ODE` does not equal that conjunction in general. -/
theorem claim_C4_counterexample :
    initializeIsODE [] = false
      ∧ (List.all [] fun v : ℚ => decide (v > 999/1000)) = true := by
  exact ⟨rfl, rfl⟩

/-- C4 (amended): `is_ODE` equals `number_of_states > 0` conjoined with the
conjunction over all state indices of `differential_mask[i] > 0.999`
(the comparison uses the 0.999 tolerance, not equality with 1.0). -/
theorem claim_C4 (rhs_alg_id : List ℚ) :
    initializeIsODE rhs_alg_id
      = (decide (0 < rhs_alg_id.length)
          && rhs_alg_id.all fun v => decide (v > 999/1000)) := by
  unfold initializeIsODE
  exact foldl_and_eq _ _ _

/-! ## Claim C5: consistent-initialization dispatch -/

/-- C5: when `is_ODE` holds and the mode is `IDA_YA_YDP_INIT`,
`ConsistentInitialization` bypasses `IDACalcIC` and overwrites `yp` with
the residual evaluated at `(t, y, 0)` (zeroed derivative argument); in
every other case it delegates to the back-end `IDACalcIC` with the given
`t_next`. -/
theorem claim_C5 (isODE : Bool) (F : ℚ → List ℚ → List ℚ → List ℚ) (n : ℕ)
    (calcIC : Int → ℚ → IntVectors → IntVectors) (t_val t_next : ℚ)
    (icopt : Int) (s : IntVectors) :
    (isODE = true → icopt = IDA_YA_YDP_INIT →
      ConsistentInitialization isODE F n calcIC t_val t_next icopt s
        = { yy := s.yy, y_cache := List.replicate n 0,
            yp := F t_val s.yy (List.replicate n 0) })
    ∧ (isODE = false ∨ icopt ≠ IDA_YA_YDP_INIT →
      ConsistentInitialization isODE F n calcIC t_val t_next icopt s
        = calcIC icopt t_next s) := by
  constructor
  · rintro rfl rfl
    simp [ConsistentInitialization, ConsistentInitializationODE]
  · intro h
    unfold ConsistentInitialization
    rw [if_neg]
    · rfl
    · rcases h with h | h <;> simp [h]

/-- Evaluation of C5 on a concrete instance (both branches). -/
theorem claim_C5_witness :
    ConsistentInitialization true (fun t y c => y ++ [t] ++ c) 2
        (fun _ _ s => s) 5 7 IDA_YA_YDP_INIT ⟨[1, 2], [3, 4], [9, 9]⟩
      = { yy := [1, 2], y_cache := [0, 0], yp := [1, 2, 5, 0, 0] }
    ∧ ConsistentInitialization false (fun t y c => y ++ [t] ++ c) 2
        (fun _ tn s => { s with yp := [tn] }) 5 7 IDA_YA_YDP_INIT
        ⟨[1, 2], [3, 4], [9, 9]⟩
      = { yy := [1, 2], yp := [7], y_cache := [9, 9] } := by
  constructor
  · rw [(claim_C5 true (fun t y c => y ++ [t] ++ c) 2 (fun _ _ s => s) 5 7
      IDA_YA_YDP_INIT ⟨[1, 2], [3, 4], [9, 9]⟩).1 rfl rfl]
    decide
  · rw [(claim_C5 false (fun t y c => y ++ [t] ++ c) 2
      (fun _ tn s => { s with yp := [tn] }) 5 7 IDA_YA_YDP_INIT
      ⟨[1, 2], [3, 4], [9, 9]⟩).2 (Or.inl rfl)]

/-! ## Claim C9: the terminal-state slice `yterm` -/

/-- C9: in outputs-only mode the assembled `yterm` slice is exactly the
working state vector at return (all `number_of_states` entries); in
full-state mode the slice is empty. -/
theorem claim_C9 {σ : Type} (B : Backend σ) (number_of_states : ℕ)
    (ds : DriverState σ) (h : (B.curY ds.ints).length = number_of_states) :
    (assembleSolution B true number_of_states ds).yterm_return = B.curY ds.ints
    ∧ ((assembleSolution B true number_of_states ds).yterm_return).length
        = number_of_states
    ∧ (assembleSolution B false number_of_states ds).yterm_return = []
    ∧ ((assembleSolution B false number_of_states ds).yterm_return).length = 0 := by
  unfold assembleSolution ytermReturn lengthOfFinalSVSlice
  refine ⟨?_, ?_, ?_, ?_⟩ <;> simp [← h]

/-- Evaluation of C9 on a concrete instance. -/
theorem claim_C9_witness :
    (assembleSolution (constBackend 0 0) true 2 sampleDriverState).yterm_return
      = [1, 2]
    ∧ (assembleSolution (constBackend 0 0) false 2
        sampleDriverState).yterm_return = [] := by
  have h := claim_C9 (constBackend 0 0) 2 sampleDriverState (by decide)
  exact ⟨h.1.trans rfl, h.2.2.1⟩

/-! ## Claim C8: outputs-only sensitivity staging -/

/-- C8: the value stored by `SetStepOutputSensitivities` for output
`dvar_k` and parameter `paramk` equals the densified explicit partial
derivative (scattered from the sparse row through `get_row`) plus the
chain-rule sum over the sparse columns of `∂f/∂y` (through `get_col`);
the explicit value is the initialisation of the accumulation, the
chain-rule sum is added onto it. -/
theorem claim_C8 (number_of_parameters : ℕ)
    (dvar_dy_fcns dvar_dp_fcns : List Expression) (tval : ℚ)
    (y_val : List ℚ) (yS_val : List (List ℚ)) (M0 : ℕ → ℕ → ℚ)
    (paramk dvar_k : ℕ) (hp : paramk < number_of_parameters)
    (hk : dvar_k < dvar_dy_fcns.length) :
    SetStepOutputSensitivities number_of_parameters dvar_dy_fcns dvar_dp_fcns
        tval y_val yS_val M0 paramk dvar_k
      = (densifyRow number_of_parameters
            (dvar_dp_fcns.getD dvar_k default).get_row
            ((dvar_dp_fcns.getD dvar_k default).eval tval y_val)).getD paramk 0
        + ((((dvar_dy_fcns.getD dvar_k default).eval tval y_val).zip
              (dvar_dy_fcns.getD dvar_k default).get_col).map
            (fun vc => vc.1 * ((yS_val.getD paramk []).getD vc.2 0))).sum := by
  unfold SetStepOutputSensitivities
  rw [foldl_writeSens_outer _ _
    (fun dk pk => sensValue number_of_parameters (dvar_dy_fcns.getD dk default)
      (dvar_dp_fcns.getD dk default) tval y_val yS_val pk)]
  rw [if_pos ⟨hp, hk⟩]
  unfold sensValue
  exact foldl_add_eq_add_sum _ _ _

/-- Evaluation of C8 on a concrete instance: one output with
`∂f/∂y = [3]` at column 1, `∂f/∂p = [2]` at row 0, two parameters,
`S_0 = [10, 20]`, `S_1 = [30, 40]`. -/
theorem claim_C8_witness :
    SetStepOutputSensitivities 2
        [⟨fun _ _ => [3], [], [1]⟩] [⟨fun _ _ => [2], [0], []⟩]
        0 [0, 0] [[10, 20], [30, 40]] (fun _ _ => 0) 0 0 = 62 := by
  rw [claim_C8 2 [⟨fun _ _ => [3], [], [1]⟩] [⟨fun _ _ => [2], [0], []⟩]
    0 [0, 0] [[10, 20], [30, 40]] (fun _ _ => 0) 0 0 (by decide) (by decide)]
  norm_num [densifyRow]

/-! ## Claim C1: the sensitivity axis triple -/

/-- C1: the flattened sensitivity tensor obeys the mode-dependent axis
triple.  In full-state mode the axes are `(n_params, N, n_states)` and
entry `[p][i][k]` is the recorded sensitivity `yS i p k` of state `k`
w.r.t. parameter `p` at snapshot `i`; in outputs-only mode the axes are
`(N, L, n_params)` and entry `[i][j][p]` is the recorded `yS i p j`.
(`returnVectorLength false n []` is definitionally `n`: in full-state
mode the row length is the state dimension.) -/
theorem claim_C1 (N P L : ℕ) (yS : ℕ → ℕ → ℕ → ℚ) :
    (∀ p i k, p < P → i < N → k < L →
      (assembleSens false N P L yS).getD (p * (N * L) + (i * L + k)) 0
        = yS i p k)
    ∧ (∀ i j p, i < N → j < L → p < P →
      (assembleSens true N P L yS).getD (i * (L * P) + (j * P + p)) 0
        = yS i p j)
    ∧ (assembleSens false N P L yS).length = P * (N * L)
    ∧ (assembleSens true N P L yS).length = N * (L * P) := by
  have hgF : ∀ a < P, (((List.range N).flatMap fun idx1 =>
      (List.range L).map fun idx2 => yS idx1 a idx2)).length = N * L := by
    intro a _
    exact flatMap_range_length N L _ (fun x _ => by simp)
  have hgT : ∀ a < N, (((List.range L).flatMap fun idx1 =>
      (List.range P).map fun idx2 => yS a idx2 idx1)).length = L * P := by
    intro a _
    exact flatMap_range_length L P _ (fun x _ => by simp)
  refine ⟨?_, ?_, ?_, ?_⟩
  · intro p i k hp hi hk
    show (((List.range P).flatMap fun idx0 => (List.range N).flatMap fun idx1 =>
      (List.range L).map fun idx2 => yS idx1 idx0 idx2).getD
        (p * (N * L) + (i * L + k)) 0) = yS i p k
    rw [flatMap_range_getD P (N * L) _ hgF p (i * L + k) 0 hp
      (by
        have h1 : (i + 1) * L ≤ N * L := Nat.mul_le_mul_right L hi
        rw [Nat.succ_mul] at h1
        omega)]
    rw [flatMap_range_getD N L _ (fun x _ => by simp) i k 0 hi hk]
    exact getD_range_map _ L k 0 hk
  · intro i j p hi hj hp
    show (((List.range N).flatMap fun idx0 => (List.range L).flatMap fun idx1 =>
      (List.range P).map fun idx2 => yS idx0 idx2 idx1).getD
        (i * (L * P) + (j * P + p)) 0) = yS i p j
    rw [flatMap_range_getD N (L * P) _ hgT i (j * P + p) 0 hi
      (by
        have h1 : (j + 1) * P ≤ L * P := Nat.mul_le_mul_right P hj
        rw [Nat.succ_mul] at h1
        omega)]
    rw [flatMap_range_getD L P _ (fun x _ => by simp) j p 0 hj hp]
    exact getD_range_map _ P p 0 hp
  · exact flatMap_range_length P (N * L) _ hgF
  · exact flatMap_range_length N (L * P) _ hgT

/-- Evaluation of C1 on a concrete instance (`N = 2`, `P = 2`, `L = 2`,
`yS i k j = 4i + 2k + j`). -/
theorem claim_C1_witness :
    (assembleSens false 2 2 2 (fun i k j => (4 * i + 2 * k + j : ℚ))).getD
        (1 * (2 * 2) + (0 * 2 + 1)) 0 = 3
    ∧ (assembleSens true 2 2 2 (fun i k j => (4 * i + 2 * k + j : ℚ))).getD
        (1 * (2 * 2) + (0 * 2 + 1)) 0 = 6 := by
  constructor
  · exact ((claim_C1 2 2 2 _).1 1 0 1 (by decide) (by decide) (by decide)).trans
      (by norm_num)
  · exact ((claim_C1 2 2 2 _).2.1 1 0 1 (by decide) (by decide) (by decide)).trans
      (by norm_num)

/-! ## Claims C6 and C7: loop-exit behaviour -/

/-- C6: if `step_one` returns with a non-negative status but a time equal to
the previous time, the driver synthesises `IDA_ERR_FAIL` itself, exits
the stepping loop at once — the recorder is untouched in that iteration —
and the assembled result carries that synthesised status. -/
theorem claim_C6 {σ : Type} (B : Backend σ) (P : SolveParams) (tf : ℚ)
    (ds : DriverState σ) (fuel : ℕ) (r : StepResult σ)
    (hr : B.solveStep ds.ints tf ds.t_eval_next = r)
    (hret : 0 ≤ r.ret) (hdup : r.tret = ds.t_prev) :
    solveLoop B P tf (fuel + 1) ds
      = { ds with ints := r.st, t_val := r.tret, retval := IDA_ERR_FAIL,
                  done := true }
    ∧ (solveLoop B P tf (fuel + 1) ds).recbuf = ds.recbuf
    ∧ (solveLoop B P tf (fuel + 1) ds).retval = IDA_ERR_FAIL
    ∧ ∀ (save_outputs_only : Bool) (number_of_states : ℕ),
        (assembleSolution B save_outputs_only number_of_states
          (solveLoop B P tf (fuel + 1) ds)).flag = IDA_ERR_FAIL := by
  have hiter : loopIter B P tf ds
      = .inr { ds with ints := r.st, t_val := r.tret, retval := IDA_ERR_FAIL,
                       done := true } := by
    unfold loopIter
    rw [hr, if_neg (by omega), if_pos hdup.symm]
  have hrun : solveLoop B P tf (fuel + 1) ds
      = { ds with ints := r.st, t_val := r.tret, retval := IDA_ERR_FAIL,
                  done := true } := by
    unfold solveLoop
    rw [hiter]
  refine ⟨hrun, ?_, ?_, ?_⟩
  · rw [hrun]
  · rw [hrun]
  · intro so n
    rw [hrun]
    rfl

/-- Evaluation of C6 on a concrete instance: a back-end step that returns
status 0 at the unchanged time 5. -/
theorem claim_C6_witness :
    (solveLoop (constBackend 0 5) sampleParams 1 3 sampleDriverState).retval
      = IDA_ERR_FAIL
    ∧ (solveLoop (constBackend 0 5) sampleParams 1 3
        sampleDriverState).recbuf = [(0, [1, 2])] := by
  have h := claim_C6 (constBackend 0 5) sampleParams 1 sampleDriverState 2
    ⟨(), 0, 5⟩ rfl (by decide) (by decide)
  exact ⟨h.2.2.1, h.2.1.trans rfl⟩

/-- C7: any negative `step_one` status aborts the stepping loop immediately
(no retry); the loop state keeps exactly the snapshots recorded up to the
last successful write, and the (total, never-throwing) assembly returns
precisely those snapshots together with the failing status flag. -/
theorem claim_C7 {σ : Type} (B : Backend σ) (P : SolveParams) (tf : ℚ)
    (ds : DriverState σ) (fuel : ℕ) (r : StepResult σ)
    (hr : B.solveStep ds.ints tf ds.t_eval_next = r)
    (hret : r.ret < 0) :
    solveLoop B P tf (fuel + 1) ds
      = { ds with ints := r.st, t_val := r.tret, retval := r.ret, done := true }
    ∧ (solveLoop B P tf (fuel + 1) ds).recbuf = ds.recbuf
    ∧ ∀ (save_outputs_only : Bool) (number_of_states : ℕ),
        (assembleSolution B save_outputs_only number_of_states
            (solveLoop B P tf (fuel + 1) ds)).flag = r.ret
        ∧ (assembleSolution B save_outputs_only number_of_states
            (solveLoop B P tf (fuel + 1) ds)).t_return
          = ds.recbuf.map Prod.fst
        ∧ (assembleSolution B save_outputs_only number_of_states
            (solveLoop B P tf (fuel + 1) ds)).y_return
          = (ds.recbuf.map Prod.snd).flatten
        ∧ (assembleSolution B save_outputs_only number_of_states
            (solveLoop B P tf (fuel + 1) ds)).number_of_timesteps
          = ds.recbuf.length := by
  have hiter : loopIter B P tf ds
      = .inr { ds with ints := r.st, t_val := r.tret, retval := r.ret,
                       done := true } := by
    unfold loopIter
    rw [hr, if_pos hret]
  have hrun : solveLoop B P tf (fuel + 1) ds
      = { ds with ints := r.st, t_val := r.tret, retval := r.ret, done := true } := by
    unfold solveLoop
    rw [hiter]
  refine ⟨hrun, ?_, ?_⟩
  · rw [hrun]
  · intro so n
    rw [hrun]
    exact ⟨rfl, rfl, rfl, rfl⟩

/-! ## Monotonicity and duplicate-pair helper lemmas -/

theorem mem_of_getLastQ (l : List ℚ) (x : ℚ) (hx : x ∈ l.getLast?) : x ∈ l := by
  rcases List.mem_getLast?_eq_getLast hx with ⟨h, h2⟩
  rw [h2]
  exact List.getLast_mem h

theorem chain'_le_of_lt (l : List ℚ) (h : List.Chain' (· < ·) l) :
    List.Chain' (· ≤ ·) l :=
  List.Chain'.imp (fun _ _ hab => le_of_lt hab) h

theorem chain'_lt_getD (l : List ℚ) (h : List.Chain' (· < ·) l) (n : ℕ)
    (hn : n + 1 < l.length) : l.getD n 0 < l.getD (n + 1) 0 := by
  rw [List.getD_eq_getElem l 0 (by omega), List.getD_eq_getElem l 0 hn]
  rw [List.chain'_iff_get] at h
  have h2 := h n (by omega)
  simpa [List.get_eq_getElem] using h2

theorem getD_mem (l : List ℚ) (n : ℕ) (d : ℚ) (h : n < l.length) :
    l.getD n d ∈ l := by
  rw [List.getD_eq_getElem l d h]
  exact List.getElem_mem h

theorem chain'_le_append_pivot (l₁ l₂ : List ℚ) (b : ℚ)
    (h₁ : List.Chain' (· ≤ ·) l₁) (h₂ : List.Chain' (· ≤ ·) l₂)
    (h₁b : ∀ x ∈ l₁, x ≤ b) (h₂b : ∀ y ∈ l₂.head?, b ≤ y) :
    List.Chain' (· ≤ ·) (l₁ ++ l₂) := by
  rw [List.chain'_append]
  refine ⟨h₁, h₂, ?_⟩
  intro x hx y hy
  exact le_trans (h₁b x (mem_of_getLastQ l₁ x hx)) (h₂b y hy)

theorem noTriple_append_chain (l₁ l₂ : List ℚ)
    (h₁ : NoTriple l₁) (h₂ : List.Chain' (· < ·) l₂)
    (hj : 2 ≤ l₁.length → l₂ ≠ [] →
      ¬(l₁.getD (l₁.length - 2) 0 = l₁.getD (l₁.length - 1) 0
        ∧ l₁.getD (l₁.length - 1) 0 = l₂.getD 0 0)) :
    NoTriple (l₁ ++ l₂) := by
  intro n hn he
  rw [List.length_append] at hn
  rcases he with ⟨e1, e2⟩
  rcases Nat.lt_or_ge (n + 2) l₁.length with hA | hA
  · rw [getD_append_lt _ _ _ _ (by omega), getD_append_lt _ _ _ _ (by omega)] at e1
    rw [getD_append_lt _ _ _ _ (by omega), getD_append_lt _ _ _ _ hA] at e2
    exact h₁ n hA ⟨e1, e2⟩
  · rcases Nat.lt_or_ge n l₁.length with hB | hB
    · rcases Nat.lt_or_ge (n + 1) l₁.length with hC | hC
      · -- n, n+1 are the last two entries of l₁, n+2 is the head of l₂
        have hl2 : l₂ ≠ [] := by
          intro h0
          rw [h0] at hn
          simp at hn
          omega
        refine hj (by omega) hl2 ⟨?_, ?_⟩
        · rw [getD_append_lt _ _ _ _ (by omega),
            getD_append_lt _ _ _ _ (by omega)] at e1
          have hn2 : l₁.length - 2 = n := by omega
          have hn1 : l₁.length - 1 = n + 1 := by omega
          rw [hn2, hn1]
          exact e1
        · rw [getD_append_lt _ _ _ _ (by omega),
            getD_append_ge _ _ _ _ (by omega)] at e2
          have hn1 : l₁.length - 1 = n + 1 := by omega
          have hz : n + 2 - l₁.length = 0 := by omega
          rw [hz] at e2
          rw [hn1]
          exact e2
      · -- n+1, n+2 are the first two entries of l₂: they differ
        have h0 : n + 1 - l₁.length = 0 := by omega
        have h1 : n + 2 - l₁.length = 1 := by omega
        rw [getD_append_ge _ _ _ _ (by omega),
          getD_append_ge _ _ _ _ (by omega), h0, h1] at e2
        have hstep := chain'_lt_getD l₂ h₂ 0 (by omega)
        rw [e2] at hstep
        exact lt_irrefl _ hstep
    · -- the whole window is inside l₂: two consecutive entries differ
      rw [getD_append_ge _ _ _ _ (by omega),
        getD_append_ge _ _ _ _ (by omega)] at e1
      have hne : n + 1 - l₁.length = n - l₁.length + 1 := by omega
      rw [hne] at e1
      have hstep := chain'_lt_getD l₂ h₂ (n - l₁.length) (by omega)
      rw [e1] at hstep
      exact lt_irrefl _ hstep

theorem noTriple_extend (times slice : List ℚ) (t_prev t_val : ℚ)
    (hnt : NoTriple times)
    (hcs : List.Chain' (· < ·) slice)
    (hle : ∀ x ∈ times, x ≤ t_prev)
    (hlt : t_prev < t_val)
    (hjunction : 2 ≤ times.length → slice ≠ [] →
      ¬(times.getD (times.length - 2) 0 = times.getD (times.length - 1) 0
        ∧ times.getD (times.length - 1) 0 = slice.getD 0 0)) :
    NoTriple (times ++ slice)
    ∧ NoTriple (times ++ slice ++ [t_val]) := by
  have h1 : NoTriple (times ++ slice) :=
    noTriple_append_chain _ _ hnt hcs hjunction
  refine ⟨h1, ?_⟩
  apply noTriple_append_chain _ _ h1 (by simp)
  intro hlen2 _ hpair
  rcases hpair with ⟨f1, f2⟩
  rw [List.length_append] at hlen2 f1 f2
  have hf2 : (times ++ slice).getD (times.length + slice.length - 1) 0 = t_val := by
    have : ([t_val] : List ℚ).getD 0 0 = t_val := rfl
    rw [← this]
    exact f2
  rcases Nat.lt_or_ge slice.length 1 with hs0 | hs1
  · -- slice is empty: the final entry of `times` would equal t_val > t_prev
    have hsl : slice.length = 0 := by omega
    have hmem : (times ++ slice).getD (times.length + slice.length - 1) 0 ∈ times := by
      rw [getD_append_lt _ _ _ _ (by omega)]
      exact getD_mem times _ 0 (by omega)
    have := hle _ hmem
    rw [hf2] at this
    exact absurd this (not_le.mpr hlt)
  · rcases Nat.lt_or_ge slice.length 2 with hs1' | hs2
    · -- slice has exactly one element p = t_val; the previous entry is in
      -- `times`, hence ≤ t_prev < t_val, contradicting the first equality
      have hsl : slice.length = 1 := by omega
      have hu : (times ++ slice).getD (times.length + slice.length - 2) 0 ∈ times := by
        rw [getD_append_lt _ _ _ _ (by omega)]
        exact getD_mem times _ 0 (by omega)
      have hle2 := hle _ hu
      rw [f1, hf2] at hle2
      exact absurd hle2 (not_le.mpr hlt)
    · -- slice has at least two elements: its last two are distinct
      have e1 : slice.getD (slice.length - 2) 0 = slice.getD (slice.length - 1) 0 := by
        have g1 : times.length + slice.length - 2 = times.length + (slice.length - 2) := by
          omega
        have g2 : times.length + slice.length - 1 = times.length + (slice.length - 1) := by
          omega
        rw [g1, g2] at f1
        rw [getD_append_ge _ _ _ _ (by omega), getD_append_ge _ _ _ _ (by omega)] at f1
        have g3 : times.length + (slice.length - 2) - times.length = slice.length - 2 := by
          omega
        have g4 : times.length + (slice.length - 1) - times.length = slice.length - 1 := by
          omega
        rw [g3, g4] at f1
        exact f1
      have hstep := chain'_lt_getD slice hcs (slice.length - 2) (by omega)
      have g5 : slice.length - 2 + 1 = slice.length - 1 := by omega
      rw [g5] at hstep
      rw [e1] at hstep
      exact lt_irrefl _ hstep

/-- Characterisation of `SetStepInterp`: it records exactly the block of
interpolation points from the current cursor up to the last one at or
before `t_val`, advances the cursor past them, leaves every other driver
field untouched, and preserves the integrator's current time. -/
theorem SetStepInterp_spec {σ : Type} (B : Backend σ) (P : SolveParams)
    (hdky : ∀ s t, B.curT (B.getdky s t) = B.curT s)
    (hsdky : ∀ s t, B.curT (B.getsensdky s t) = B.curT s)
    (hne : P.t_interp ≠ []) :
    ∀ (n : ℕ) (ds : DriverState σ),
    P.t_interp.length - ds.i_interp ≤ n →
    ds.i_interp ≤ P.t_interp.length →
    (ds.i_interp < P.t_interp.length →
      ds.t_interp_next = P.t_interp.getD ds.i_interp 0) →
    ∃ m, ds.i_interp ≤ m ∧ m ≤ P.t_interp.length
      ∧ (SetStepInterp B P ds).i_interp = m
      ∧ recTimes (SetStepInterp B P ds)
          = recTimes ds ++ (P.t_interp.drop ds.i_interp).take (m - ds.i_interp)
      ∧ (∀ x ∈ (P.t_interp.drop ds.i_interp).take (m - ds.i_interp),
          x ≤ ds.t_val)
      ∧ (m < P.t_interp.length →
          (SetStepInterp B P ds).t_interp_next = P.t_interp.getD m 0
          ∧ ds.t_val < P.t_interp.getD m 0)
      ∧ (m = P.t_interp.length →
          (SetStepInterp B P ds).t_interp_next
            = if ds.i_interp < m then P.t_interp.getD (m - 1) 0
              else ds.t_interp_next)
      ∧ (SetStepInterp B P ds).t_val = ds.t_val
      ∧ (SetStepInterp B P ds).t_prev = ds.t_prev
      ∧ (SetStepInterp B P ds).i_eval = ds.i_eval
      ∧ (SetStepInterp B P ds).t_eval_next = ds.t_eval_next
      ∧ (SetStepInterp B P ds).retval = ds.retval
      ∧ (SetStepInterp B P ds).done = ds.done
      ∧ B.curT (SetStepInterp B P ds).ints = B.curT ds.ints := by
  have hlen1 : 1 ≤ P.t_interp.length := List.length_pos.mpr hne
  have hfetch : ∀ ds : DriverState σ,
      B.curT (interpFetch B P ds) = B.curT ds.ints := by
    intro ds
    unfold interpFetch
    by_cases hs : P.sensitivity <;> simp [hs, hdky, hsdky]
  intro n
  induction n with
  | zero =>
    intro ds hfuel hile hpre
    have hguard : ¬(ds.i_interp ≤ P.t_interp.length - 1
        ∧ ds.t_interp_next ≤ ds.t_val) := by
      rintro ⟨h1, -⟩
      omega
    rw [SetStepInterp, dif_neg hguard]
    refine ⟨ds.i_interp, le_refl _, hile, rfl, by simp, by simp, ?_, ?_,
      rfl, rfl, rfl, rfl, rfl, rfl, rfl⟩
    · intro h
      omega
    · intro _
      simp
  | succ n ih =>
    intro ds hfuel hile hpre
    by_cases hguard : ds.i_interp ≤ P.t_interp.length - 1
        ∧ ds.t_interp_next ≤ ds.t_val
    · have hilt : ds.i_interp < P.t_interp.length := by omega
      have htin : ds.t_interp_next = P.t_interp.getD ds.i_interp 0 := hpre hilt
      have hdrop : P.t_interp.drop ds.i_interp
          = P.t_interp.getD ds.i_interp 0
            :: P.t_interp.drop (ds.i_interp + 1) := by
        rw [List.getD_eq_getElem _ _ hilt]
        exact List.drop_eq_getElem_cons hilt
      have hone : ds.i_interp + 1 - ds.i_interp = 1 := by omega
      rw [SetStepInterp, dif_pos hguard]
      by_cases hend : ds.i_interp + 1 = P.t_interp.length
      · rw [if_pos hend]
        refine ⟨ds.i_interp + 1, by omega, by omega, rfl, ?_, ?_, ?_, ?_,
          rfl, rfl, rfl, rfl, rfl, rfl, hfetch ds⟩
        · rw [hdrop, hone, List.take_succ_cons, List.take_zero]
          simp only [recTimes, setStepRecord, List.map_append, List.map_cons,
            List.map_nil]
          rw [htin]
        · intro x hx
          rw [hdrop, hone, List.take_succ_cons, List.take_zero,
            List.mem_singleton] at hx
          rw [hx, ← htin]
          exact hguard.2
        · intro h
          omega
        · intro _
          rw [if_pos (by omega)]
          rw [htin]
          simp
      · rw [if_neg hend]
        set ds2 : DriverState σ :=
          { ds with ints := interpFetch B P ds,
                    recbuf := setStepRecord B (interpFetch B P ds)
                      ds.t_interp_next ds.recbuf,
                    i_interp := ds.i_interp + 1,
                    t_interp_next := P.t_interp.getD (ds.i_interp + 1) 0 }
          with hds2
        have hi2 : ds2.i_interp = ds.i_interp + 1 := rfl
        have htv2 : ds2.t_val = ds.t_val := rfl
        have hrec2 : recTimes ds2 = recTimes ds ++ [ds.t_interp_next] := by
          rw [hds2]
          simp [recTimes, setStepRecord]
        have hp1 : P.t_interp.length - ds2.i_interp ≤ n := by
          rw [hi2]
          omega
        have hp2 : ds2.i_interp ≤ P.t_interp.length := by
          rw [hi2]
          omega
        have hp3 : ds2.i_interp < P.t_interp.length →
            ds2.t_interp_next = P.t_interp.getD ds2.i_interp 0 :=
          fun _ => rfl
        obtain ⟨m, hm1, hm2, hm3, hm4, hm5, hm6, hm7, hm8, hm9, hm10, hm11,
          hm12, hm13, hm14⟩ := ih ds2 hp1 hp2 hp3
        rw [hi2] at hm1
        have hslice : (P.t_interp.drop ds.i_interp).take (m - ds.i_interp)
            = P.t_interp.getD ds.i_interp 0
              :: (P.t_interp.drop (ds.i_interp + 1)).take
                  (m - (ds.i_interp + 1)) := by
          rw [hdrop]
          have h1 : m - ds.i_interp = (m - (ds.i_interp + 1)) + 1 := by omega
          rw [h1, List.take_succ_cons]
        refine ⟨m, by omega, hm2, hm3, ?_, ?_, ?_, ?_, hm8.trans htv2,
          hm9, hm10, hm11, hm12, hm13, hm14.trans (hfetch ds)⟩
        · rw [hm4, hrec2, hslice, htin, hi2, List.append_assoc]
          rfl
        · intro x hx
          rw [hslice] at hx
          rcases List.mem_cons.mp hx with h | h
          · rw [h, ← htin]
            exact hguard.2
          · have h2 := hm5 x (by rw [hi2]; exact h)
            rw [htv2] at h2
            exact h2
        · intro h
          have h2 := hm6 h
          rw [htv2] at h2
          exact h2
        · intro h
          have h2 := hm7 h
          rw [if_pos (by omega)]
          rw [if_pos (by rw [hi2]; omega)] at h2
          exact h2
    · rw [SetStepInterp, dif_neg hguard]
      refine ⟨ds.i_interp, le_refl _, hile, rfl, by simp, by simp, ?_, ?_,
        rfl, rfl, rfl, rfl, rfl, rfl, rfl⟩
      · intro h
        have h2 : ¬(ds.t_interp_next ≤ ds.t_val) := by
          intro hc
          exact hguard ⟨by omega, hc⟩
        refine ⟨hpre h, ?_⟩
        rw [← hpre h]
        exact not_le.mp h2
      · intro _
        simp

theorem chain_extend (times slice : List ℚ) (t_prev t_val : ℚ)
    (hchain : List.Chain' (· ≤ ·) times)
    (hcs : List.Chain' (· < ·) slice)
    (hle : ∀ x ∈ times, x ≤ t_prev)
    (hltv : t_prev ≤ t_val)
    (hhead : ∀ y ∈ slice.head?, t_prev ≤ y)
    (hsle : ∀ x ∈ slice, x ≤ t_val) :
    List.Chain' (· ≤ ·) (times ++ slice)
    ∧ (∀ x ∈ times ++ slice, x ≤ t_val)
    ∧ List.Chain' (· ≤ ·) (times ++ slice ++ [t_val]) := by
  have hc1 := chain'_le_append_pivot times slice t_prev hchain
    (chain'_le_of_lt _ hcs) hle hhead
  have hall : ∀ x ∈ times ++ slice, x ≤ t_val := by
    intro x hx
    rcases List.mem_append.mp hx with h | h
    · exact le_trans (hle x h) hltv
    · exact hsle x h
  refine ⟨hc1, hall, ?_⟩
  apply chain'_le_append_pivot _ _ t_val hc1 (by simp) hall
  intro y hy
  simp at hy
  exact le_of_eq hy

theorem slice_head (l : List ℚ) (i k : ℕ) (hi : i < l.length) (hk : 1 ≤ k) :
    ((l.drop i).take k).getD 0 0 = l.getD i 0 := by
  rw [List.getD_eq_getElem?_getD, List.getD_eq_getElem?_getD]
  rw [List.getElem?_take]
  rw [if_pos (by omega), List.getElem?_drop]
  simp

theorem getD_mem_slice (l : List ℚ) (i k j : ℕ) (hj1 : i ≤ j)
    (hj2 : j < i + k) (hj3 : j < l.length) :
    l.getD j 0 ∈ (l.drop i).take k := by
  have h : ((l.drop i).take k)[j - i]? = some (l.getD j 0) := by
    rw [List.getElem?_take, if_pos (by omega), List.getElem?_drop]
    have he : i + (j - i) = j := by omega
    rw [he, List.getElem?_eq_getElem hj3, List.getD_eq_getElem l 0 hj3]
  exact List.mem_iff_getElem?.mpr ⟨j - i, h⟩

theorem slice_chain_lt (l : List ℚ) (i k : ℕ) (h : l.Pairwise (· < ·)) :
    List.Chain' (· < ·) ((l.drop i).take k) := by
  apply List.Pairwise.chain'
  exact h.sublist (((l.drop i).take_sublist k).trans (l.drop_sublist i))

theorem pairwise_lt_getD (l : List ℚ) (h : l.Pairwise (· < ·)) (i j : ℕ)
    (hij : i < j) (hj : j < l.length) : l.getD i 0 < l.getD j 0 := by
  rw [List.pairwise_iff_getElem] at h
  rw [List.getD_eq_getElem l 0 (by omega), List.getD_eq_getElem l 0 hj]
  exact h i j (by omega) hj hij

theorem pairwise_le_getD (l : List ℚ) (h : l.Pairwise (· < ·)) (i j : ℕ)
    (hij : i ≤ j) (hj : j < l.length) : l.getD i 0 ≤ l.getD j 0 := by
  rcases Nat.lt_or_ge i j with h2 | h2
  · exact le_of_lt (pairwise_lt_getD l h i j h2 hj)
  · have he : i = j := by omega
    rw [he]

theorem getLastD_mem (l : List ℚ) (h : l ≠ []) : l.getLastD 0 ∈ l := by
  have h1 : 1 ≤ l.length := List.length_pos.mpr h
  have h2 : l.getLastD 0 = l.getD (l.length - 1) 0 := by
    rw [List.getLastD_eq_getLast?, List.getLast?_eq_getElem?,
      List.getD_eq_getElem?_getD]
  rw [h2]
  exact getD_mem l _ 0 (by omega)

theorem sensPhase_fields {σ : Type} (B : Backend σ) (P : SolveParams)
    (ds : DriverState σ)
    (hsdky : ∀ s t, B.curT (B.getsensdky s t) = B.curT s) :
    (sensPhase B P ds).t_val = ds.t_val
    ∧ (sensPhase B P ds).t_prev = ds.t_prev
    ∧ (sensPhase B P ds).i_eval = ds.i_eval
    ∧ (sensPhase B P ds).t_eval_next = ds.t_eval_next
    ∧ (sensPhase B P ds).i_interp = ds.i_interp
    ∧ (sensPhase B P ds).t_interp_next = ds.t_interp_next
    ∧ (sensPhase B P ds).recbuf = ds.recbuf
    ∧ (sensPhase B P ds).retval = ds.retval
    ∧ (sensPhase B P ds).done = ds.done
    ∧ B.curT (sensPhase B P ds).ints = B.curT ds.ints := by
  unfold sensPhase
  by_cases hs : P.sensitivity <;> simp [hs, hsdky]

theorem recordPhase_spec {σ : Type} (B : Backend σ) (P : SolveParams)
    (hti : Bool) (ds : DriverState σ)
    (hdky : ∀ s t, B.curT (B.getdky s t) = B.curT s)
    (hsdky : ∀ s t, B.curT (B.getsensdky s t) = B.curT s) :
    (recTimes (recordPhase B P hti ds) = recTimes ds
      ∨ recTimes (recordPhase B P hti ds) = recTimes ds ++ [ds.t_val])
    ∧ (ds.retval = IDA_TSTOP_RETURN →
        recTimes (recordPhase B P hti ds) = recTimes ds ++ [ds.t_val])
    ∧ (recordPhase B P hti ds).t_val = ds.t_val
    ∧ (recordPhase B P hti ds).t_prev = ds.t_prev
    ∧ (recordPhase B P hti ds).i_eval = ds.i_eval
    ∧ (recordPhase B P hti ds).t_eval_next = ds.t_eval_next
    ∧ (recordPhase B P hti ds).i_interp = ds.i_interp
    ∧ (recordPhase B P hti ds).t_interp_next = ds.t_interp_next
    ∧ (recordPhase B P hti ds).retval = ds.retval
    ∧ (recordPhase B P hti ds).done = ds.done
    ∧ B.curT (recordPhase B P hti ds).ints = B.curT ds.ints := by
  have hfetch : B.curT (restoreFetch B P ds) = B.curT ds.ints := by
    unfold restoreFetch
    by_cases hs : P.sensitivity <;> simp [hs, hdky, hsdky]
  unfold recordPhase
  by_cases hcond : (P.save_adaptive_steps && decide (ds.retval = IDA_SUCCESS)
      || decide (ds.retval = IDA_TSTOP_RETURN)
      || decide (ds.retval = IDA_ROOT_RETURN)) = true
  · rw [if_pos hcond]
    refine ⟨Or.inr ?_, fun _ => ?_, rfl, rfl, rfl, rfl, rfl, rfl, rfl, rfl, ?_⟩
    · simp [recTimes, setStepRecord]
    · simp [recTimes, setStepRecord]
    · by_cases ht : hti = true <;> simp [ht, hfetch]
  · rw [if_neg hcond]
    refine ⟨Or.inl rfl, fun h => ?_, rfl, rfl, rfl, rfl, rfl, rfl, rfl, rfl, rfl⟩
    exfalso
    apply hcond
    simp [h]

theorem getLastD_eq_getD (l : List ℚ) :
    l.getLastD 0 = l.getD (l.length - 1) 0 := by
  rw [List.getLastD_eq_getLast?, List.getLast?_eq_getElem?,
    List.getD_eq_getElem?_getD]

theorem curT_backendConsistentInit {σ : Type} (B : Backend σ)
    (hB : BackendContract B) (iso : Bool) (s : σ) (tv tn : ℚ) (ic : Int) :
    B.curT (backendConsistentInit B iso s tv tn ic) = B.curT s := by
  unfold backendConsistentInit
  split_ifs <;> simp [hB.curT_resetYP, hB.curT_calcIC]

theorem advancePhase_exit {σ : Type} (B : Backend σ) (P : SolveParams)
    (tf : ℚ) (ds : DriverState σ)
    (h : tf ≤ ds.t_val ∨ ds.retval = IDA_ROOT_RETURN
      ∨ (ds.retval = IDA_TSTOP_RETURN ∧ ds.i_eval = P.t_eval.length)) :
    advancePhase B P tf ds = .inr { ds with done := true } := by
  unfold advancePhase
  rcases h with h | h | ⟨h1, h2⟩
  · simp [h]
  · simp [h]
  · simp [h1, h2]

theorem advancePhase_tstop {σ : Type} (B : Backend σ) (P : SolveParams)
    (tf : ℚ) (ds : DriverState σ)
    (h1 : ¬(tf ≤ ds.t_val)) (h2 : ds.retval = IDA_TSTOP_RETURN)
    (h3 : ds.i_eval ≠ P.t_eval.length) :
    advancePhase B P tf ds = .inl { ds with
      ints := backendConsistentInit B P.isODE (B.reinit ds.ints ds.t_val)
        ds.t_val (P.t_eval.getD (ds.i_eval + 1) 0) IDA_YA_YDP_INIT,
      i_eval := ds.i_eval + 1,
      t_eval_next := P.t_eval.getD (ds.i_eval + 1) 0,
      t_prev := ds.t_val } := by
  unfold advancePhase
  simp [h1, h2, h3, IDA_TSTOP_RETURN, IDA_ROOT_RETURN]

theorem advancePhase_plain {σ : Type} (B : Backend σ) (P : SolveParams)
    (tf : ℚ) (ds : DriverState σ)
    (h1 : ¬(tf ≤ ds.t_val)) (h2 : ds.retval ≠ IDA_TSTOP_RETURN)
    (h3 : ds.retval ≠ IDA_ROOT_RETURN) :
    advancePhase B P tf ds = .inl { ds with t_prev := ds.t_val } := by
  unfold advancePhase
  simp [h1, h2, h3]

/-- Evaluation of C7 on a concrete instance: a back-end step that fails with
status -4. -/
theorem claim_C7_witness :
    (solveLoop (constBackend (-4) 6) sampleParams 1 3 sampleDriverState).retval
      = -4
    ∧ (assembleSolution (constBackend (-4) 6) false 2
        (solveLoop (constBackend (-4) 6) sampleParams 1 3
          sampleDriverState)).t_return = [0] := by
  have h := claim_C7 (constBackend (-4) 6) sampleParams 1 sampleDriverState 2
    ⟨(), -4, 6⟩ rfl (by decide)
  refine ⟨?_, ?_⟩
  · rw [h.1]
  · exact (h.2.2 false 2).2.1.trans rfl


/-- Preservation of the loop invariant by one iteration of the stepping
loop, and the exit facts at any `break`. -/
theorem loopIter_inv {σ : Type} (B : Backend σ) (P : SolveParams) (tf : ℚ)
    (hB : BackendContract B) (hS : ScheduleOK P)
    (htf : tf = P.t_eval.getD (P.t_eval.length - 1) 0)
    (ds : DriverState σ) (hInv : DriverInv B P ds) :
    (∀ ds', loopIter B P tf ds = .inl ds' → DriverInv B P ds')
    ∧ (∀ ds', loopIter B P tf ds = .inr ds' → ExitInv P ds') := by
  obtain ⟨hchain, hnt, hle, hcurT, hii, hJ6, hJ7, hie1, hielt, htev, hK1, hK4,
    hdone⟩ := hInv
  have hdky := hB.curT_getdky
  have hsdky := hB.curT_getsensdky
  have htimes_ne : recTimes ds ≠ [] := by
    have h0 := hK1 0 (by omega)
    intro he
    rw [he] at h0
    exact absurd h0 (List.not_mem_nil _)
  have bfalse : ∀ b : Bool, ¬(b = true) → b = false := by decide
  simp only [loopIter]
  set r := B.solveStep ds.ints tf ds.t_eval_next with hrdef
  by_cases hc1 : r.ret < 0
  · rw [if_pos hc1]
    refine ⟨fun ds' heq => absurd heq (by simp), fun ds' heq => ?_⟩
    rw [Sum.inr.injEq] at heq
    subst heq
    refine ⟨hchain, hnt, ?_⟩
    intro h0
    exfalso
    have h0' : (0 : Int) ≤ r.ret := h0
    omega
  · rw [if_neg hc1]
    by_cases hc2 : ds.t_prev = r.tret
    · rw [if_pos hc2]
      refine ⟨fun ds' heq => absurd heq (by simp), fun ds' heq => ?_⟩
      rw [Sum.inr.injEq] at heq
      subst heq
      refine ⟨hchain, hnt, ?_⟩
      intro h0
      exfalso
      have h0' : (0 : Int) ≤ IDA_ERR_FAIL := h0
      norm_num [IDA_ERR_FAIL] at h0'
    · rw [if_neg hc2]
      -- the main branch: a successful, strictly advancing step
      have hnn : (0 : Int) ≤ r.ret := not_lt.mp hc1
      have hfw : B.curT ds.ints ≤ r.tret := by
        have h := hB.step_forward ds.ints tf ds.t_eval_next
        rw [← hrdef] at h
        exact h hnn
      have hprog : ds.t_prev < r.tret := by
        have h2 : ds.t_prev ≤ r.tret := by
          rw [hcurT]
          exact hfw
        exact lt_of_le_of_ne h2 hc2
      have hcls : r.ret = IDA_SUCCESS ∨ r.ret = IDA_TSTOP_RETURN
          ∨ r.ret = IDA_ROOT_RETURN := by
        have h := hB.step_ret ds.ints tf ds.t_eval_next
        rw [← hrdef] at h
        exact h hnn
      have hlestop : r.tret ≤ ds.t_eval_next := by
        have h := hB.step_le_stop ds.ints tf ds.t_eval_next
        rw [← hrdef] at h
        exact h hnn
      have hstopex : r.ret = IDA_TSTOP_RETURN → r.tret = ds.t_eval_next := by
        have h := hB.step_stop_exact ds.ints tf ds.t_eval_next
        rw [← hrdef] at h
        exact h
      have hltstop : r.ret = IDA_SUCCESS ∨ r.ret = IDA_ROOT_RETURN →
          r.tret < ds.t_eval_next := by
        have h := hB.step_lt_stop ds.ints tf ds.t_eval_next
        rw [← hrdef] at h
        exact h
      have hcurTst : B.curT r.st = r.tret := by
        have h := hB.step_curT ds.ints tf ds.t_eval_next
        rw [← hrdef] at h
        exact h hnn
      set dsA := stepUpdate ds r with hdsA
      set hti := hitTinterp P dsA with hhti
      set dsB := sensPhase B P dsA with hdsB
      obtain ⟨hb1, hb2, hb3, hb4, hb5, hb6, hb7, hb8, hb9, hb10⟩ :=
        sensPhase_fields B P dsA hsdky
      have hBtv : dsB.t_val = r.tret := hb1.trans rfl
      have hBtp : dsB.t_prev = ds.t_prev := hb2.trans rfl
      have hBie : dsB.i_eval = ds.i_eval := hb3.trans rfl
      have hBten : dsB.t_eval_next = ds.t_eval_next := hb4.trans rfl
      have hBii : dsB.i_interp = ds.i_interp := hb5.trans rfl
      have hBtin : dsB.t_interp_next = ds.t_interp_next := hb6.trans rfl
      have hBrec : recTimes dsB = recTimes ds := by
        unfold recTimes
        rw [hb7]
        rfl
      have hBrv : dsB.retval = r.ret := hb8.trans rfl
      have hBdn : dsB.done = false := by
        rw [hb9]
        exact hdone
      have hBct : B.curT dsB.ints = r.tret := by
        rw [hb10]
        exact hcurTst
      have htisave : hti = true → P.save_interp_steps = true := by
        intro h
        rw [hhti] at h
        unfold hitTinterp at h
        simp only [Bool.and_eq_true, decide_eq_true_eq] at h
        exact h.1
      have htitin : hti = true → ds.t_prev ≤ ds.t_interp_next := by
        intro h
        rw [hhti] at h
        unfold hitTinterp at h
        simp only [Bool.and_eq_true, decide_eq_true_eq] at h
        exact h.2
      have hfalse_len : hti = false → P.save_interp_steps = true →
          P.t_interp.length ≤ ds.i_interp := by
        intro h hsv
        by_contra hcon
        have hlt : ds.i_interp < P.t_interp.length := by omega
        have h6 := hJ6 hsv hlt
        have h7 : hti = true := by
          rw [hhti]
          unfold hitTinterp
          simp only [Bool.and_eq_true, decide_eq_true_eq]
          exact ⟨hsv, h6.2⟩
        rw [h] at h7
        simp at h7
      set dsC := interpPhase B P hti dsB with hdsC
      -- characterise the interpolation phase relative to `ds`
      have hCex : ∃ m, ds.i_interp ≤ m ∧ m ≤ P.t_interp.length
          ∧ dsC.i_interp = m
          ∧ recTimes dsC = recTimes ds
              ++ (P.t_interp.drop ds.i_interp).take (m - ds.i_interp)
          ∧ (∀ x ∈ (P.t_interp.drop ds.i_interp).take (m - ds.i_interp),
              x ≤ r.tret)
          ∧ (P.save_interp_steps = true → m < P.t_interp.length →
              dsC.t_interp_next = P.t_interp.getD m 0)
          ∧ (hti = true → m < P.t_interp.length →
              r.tret < P.t_interp.getD m 0)
          ∧ (hti = false → m = ds.i_interp
              ∧ dsC.t_interp_next = ds.t_interp_next)
          ∧ dsC.t_val = r.tret ∧ dsC.t_prev = ds.t_prev
          ∧ dsC.i_eval = ds.i_eval ∧ dsC.t_eval_next = ds.t_eval_next
          ∧ dsC.retval = r.ret ∧ dsC.done = false
          ∧ B.curT dsC.ints = r.tret := by
        by_cases ht : hti = true
        · have hsv := htisave ht
          have hne : P.t_interp ≠ [] := hS.t_interp_ne hsv
          have hCval : dsC = SetStepInterp B P dsB := by
            rw [hdsC]
            unfold interpPhase
            rw [if_pos ht]
          obtain ⟨m, hm1, hm2, hm3, hm4, hm5, hm6, hm7, hm8, hm9, hm10, hm11,
            hm12, hm13, hm14⟩ :=
            SetStepInterp_spec B P hdky hsdky hne P.t_interp.length dsB
              (by rw [hBii]; omega) (by rw [hBii]; exact hii)
              (by
                rw [hBii, hBtin]
                intro hlt
                exact (hJ6 hsv hlt).1)
          rw [hBii] at hm1 hm4 hm5
          rw [← hCval] at hm3 hm4 hm6 hm8 hm9 hm10 hm11 hm12 hm13 hm14
          refine ⟨m, hm1, hm2, hm3, ?_, ?_, ?_, ?_, ?_, hm8.trans hBtv,
            hm9.trans hBtp, hm10.trans hBie, hm11.trans hBten,
            hm12.trans hBrv, hm13.trans hBdn, hm14.trans hBct⟩
          · rw [hm4, hBrec]
          · intro x hx
            have h2 := hm5 x hx
            rw [hBtv] at h2
            exact h2
          · intro _ hlt
            exact (hm6 hlt).1
          · intro _ hlt
            have h2 := (hm6 hlt).2
            rw [hBtv] at h2
            exact h2
          · intro hf
            rw [hf] at ht
            exact absurd ht (by simp)
        · have hf : hti = false := bfalse hti ht
          have hCval : dsC = dsB := by
            rw [hdsC]
            unfold interpPhase
            rw [if_neg ht]
          refine ⟨ds.i_interp, le_refl _, hii, by rw [hCval]; exact hBii, ?_,
            ?_, ?_, ?_, fun _ => ⟨rfl, by rw [hCval]; exact hBtin⟩,
            by rw [hCval]; exact hBtv, by rw [hCval]; exact hBtp,
            by rw [hCval]; exact hBie, by rw [hCval]; exact hBten,
            by rw [hCval]; exact hBrv, by rw [hCval]; exact hBdn,
            by rw [hCval]; exact hBct⟩
          · rw [hCval, hBrec]
            simp
          · intro x hx
            simp at hx
          · intro hsv hlt
            exfalso
            have := hfalse_len hf hsv
            omega
          · intro ht2
            rw [ht2] at hf
            exact absurd hf (by simp)
      obtain ⟨m, hm1, hm2, hCii, hCrec, hCsle, hCtin_eq, hCtin_lt, hCfalse,
        hCtv, hCtp, hCie, hCten, hCrv, hCdn, hCct⟩ := hCex
      set slice := (P.t_interp.drop ds.i_interp).take (m - ds.i_interp)
        with hslice_def
      -- properties of the slice of interpolation points
      have hslice_chain : List.Chain' (· < ·) slice :=
        slice_chain_lt P.t_interp ds.i_interp (m - ds.i_interp)
          hS.t_interp_sorted
      have hslice_ne_imp : slice ≠ [] → hti = true ∧ ds.i_interp < m := by
        intro hne0
        constructor
        · by_contra hcon
          have hf : hti = false := bfalse hti hcon
          have h2 := (hCfalse hf).1
          rw [hslice_def, h2] at hne0
          simp at hne0
        · by_contra hcon
          have h2 : m = ds.i_interp := by omega
          rw [hslice_def, h2] at hne0
          simp at hne0
      have hslice_len_lt : slice ≠ [] → ds.i_interp < P.t_interp.length := by
        intro hne0
        have h2 := (hslice_ne_imp hne0).2
        omega
      have hslice_head : slice ≠ [] → slice.getD 0 0 = ds.t_interp_next := by
        intro hne0
        obtain ⟨ht, hlt⟩ := hslice_ne_imp hne0
        have hsv := htisave ht
        have hilen := hslice_len_lt hne0
        rw [hslice_def, slice_head P.t_interp _ _ hilen (by omega)]
        exact ((hJ6 hsv hilen).1).symm
      -- monotone-chain and pair facts of the extended recorder
      have hextend := chain_extend (recTimes ds) slice ds.t_prev r.tret hchain
        hslice_chain hle (le_of_lt hprog)
        (by
          intro y hy
          rcases List.eq_nil_or_concat slice with hnil | _
          · rw [hnil] at hy
            simp at hy
          · rw [List.head?_eq_getElem?] at hy
            rcases List.eq_nil_or_concat slice with hnil2 | _
            · rw [hnil2] at hy
              simp at hy
            · have hne0 : slice ≠ [] := by
                intro hc
                rw [hc] at hy
                simp at hy
              have hh := hslice_head hne0
              have h1 : 0 < slice.length := List.length_pos.mpr hne0
              rw [List.getElem?_eq_getElem h1] at hy
              have hyv : y = slice.getD 0 0 := by
                rw [List.getD_eq_getElem slice 0 h1]
                exact (Option.some_inj.mp hy).symm
              rw [hyv, hh]
              obtain ⟨ht, _⟩ := hslice_ne_imp hne0
              exact htitin ht)
        hCsle
      obtain ⟨hchainCS, hallCS, hchainCSV⟩ := hextend
      have hntriple := noTriple_extend (recTimes ds) slice ds.t_prev r.tret hnt
        hslice_chain hle hprog
        (by
          intro hlen2 hne0 hpair
          obtain ⟨hp1, hp2⟩ := hpair
          have hpe : PairEnd (recTimes ds) := ⟨hlen2, hp1⟩
          obtain ⟨ht, hltm⟩ := hslice_ne_imp hne0
          have hsv := htisave ht
          rcases hJ7 hpe with h | h | h
          · simp [hsv] at h
          · have := hslice_len_lt hne0
            omega
          · rw [hslice_head hne0] at hp2
            rw [getLastD_eq_getD] at h
            rw [hp2] at h
            exact lt_irrefl _ h)
      obtain ⟨hntCS, hntCSV⟩ := hntriple
      set dsD := recordPhase B P hti dsC with hdsD
      obtain ⟨hd1, hd2, hd3, hd4, hd5, hd6, hd7, hd8, hd9, hd10, hd11⟩ :=
        recordPhase_spec B P hti dsC hdky hsdky
      have hDtv : dsD.t_val = r.tret := hd3.trans hCtv
      have hDtp : dsD.t_prev = ds.t_prev := hd4.trans hCtp
      have hDie : dsD.i_eval = ds.i_eval := hd5.trans hCie
      have hDten : dsD.t_eval_next = ds.t_eval_next := hd6.trans hCten
      have hDii : dsD.i_interp = m := hd7.trans hCii
      have hDrv : dsD.retval = r.ret := hd9.trans hCrv
      have hDdn : dsD.done = false := hd10.trans hCdn
      have hDct : B.curT dsD.ints = r.tret := hd11.trans hCct
      -- the two possible shapes of the recorder after the record phase
      have hDrec : recTimes dsD = recTimes ds ++ slice
          ∨ recTimes dsD = recTimes ds ++ slice ++ [r.tret] := by
        rcases hd1 with h | h
        · left
          rw [h, hCrec]
        · right
          rw [h, hCrec, hCtv]
      have hDrec_tstop : r.ret = IDA_TSTOP_RETURN →
          recTimes dsD = recTimes ds ++ slice ++ [r.tret] := by
        intro h
        have h2 := hd2 (by rw [hCrv]; exact h)
        rw [h2, hCrec, hCtv]
      have hDchain : List.Chain' (· ≤ ·) (recTimes dsD) := by
        rcases hDrec with h | h
        · rw [h]
          exact hchainCS
        · rw [h]
          exact hchainCSV
      have hDnt : NoTriple (recTimes dsD) := by
        rcases hDrec with h | h
        · rw [h]
          exact hntCS
        · rw [h]
          exact hntCSV
      have hDall : ∀ x ∈ recTimes dsD, x ≤ r.tret := by
        intro x hx
        rcases hDrec with h | h
        · rw [h] at hx
          exact hallCS x hx
        · rw [h] at hx
          rcases List.mem_append.mp hx with h2 | h2
          · exact hallCS x h2
          · rw [List.mem_singleton] at h2
            exact le_of_eq h2
      have hDne : recTimes dsD ≠ [] := by
        rcases hDrec with h | h <;> rw [h]
        · simp [htimes_ne]
        · simp
      have hDmem_old : ∀ x, x ∈ recTimes ds → x ∈ recTimes dsD := by
        intro x hx
        rcases hDrec with h | h <;> rw [h]
        · exact List.mem_append_left _ hx
        · exact List.mem_append_left _ (List.mem_append_left _ hx)
      have hDmem_slice : ∀ x, x ∈ slice → x ∈ recTimes dsD := by
        intro x hx
        rcases hDrec with h | h <;> rw [h]
        · exact List.mem_append_right _ hx
        · exact List.mem_append_left _ (List.mem_append_right _ hx)
      -- interpolation-point completeness up to `m`, after this iteration
      have hK4D : P.save_interp_steps = true → ∀ j < m,
          P.t_interp.getD j 0 ∈ recTimes dsD := by
        intro hsv j hj
        rcases Nat.lt_or_ge j ds.i_interp with hj2 | hj2
        · exact hDmem_old _ (hK4 hsv j hj2)
        · apply hDmem_slice
          rw [hslice_def]
          apply getD_mem_slice
          · exact hj2
          · omega
          · omega
      -- eval-point completeness carried over
      have hK1D : ∀ j < ds.i_eval, P.t_eval.getD j 0 ∈ recTimes dsD :=
        fun j hj => hDmem_old _ (hK1 j hj)
      -- re-established bound on the interpolation cursor
      have hJ6D : P.save_interp_steps = true → m < P.t_interp.length →
          dsD.t_interp_next = P.t_interp.getD m 0
          ∧ r.tret ≤ dsD.t_interp_next := by
        intro hsv hlt
        have he := hCtin_eq hsv hlt
        have he2 : dsD.t_interp_next = P.t_interp.getD m 0 := by
          rw [hd8]
          exact he
        refine ⟨he2, ?_⟩
        rw [he2]
        by_cases ht : hti = true
        · exact le_of_lt (hCtin_lt ht hlt)
        · exfalso
          have hf : hti = false := bfalse hti ht
          have h2 := (hCfalse hf).1
          have h3 := hfalse_len hf hsv
          omega
      have hJ7D : PairEnd (recTimes dsD) →
          P.save_interp_steps = false ∨ P.t_interp.length ≤ m
          ∨ (recTimes dsD).getLastD 0 < dsD.t_interp_next := by
        intro _
        by_cases hsv : P.save_interp_steps = true
        case neg => exact Or.inl (bfalse _ hsv)
        rcases Nat.lt_or_ge m P.t_interp.length with hlt | hge
        · right
          right
          have hJ := hJ6D hsv hlt
          have hlast : (recTimes dsD).getLastD 0 ≤ r.tret := by
            apply hDall
            exact getLastD_mem _ hDne
          by_cases ht : hti = true
          · have h2 := hCtin_lt ht hlt
            rw [hJ.1]
            exact lt_of_le_of_lt hlast h2
          · exfalso
            have hf : hti = false := bfalse hti ht
            have h2 := (hCfalse hf).1
            have h3 := hfalse_len hf hsv
            omega
        · exact Or.inr (Or.inl hge)
      -- dispatch of the advance phase
      constructor
      · -- continuation: the invariant is preserved
        intro ds' heq
        by_cases hfin : tf ≤ r.tret
        · rw [advancePhase_exit B P tf dsD (Or.inl (by rw [hDtv]; exact hfin))]
            at heq
          exact absurd heq (by simp)
        · by_cases hev : r.ret = IDA_ROOT_RETURN
          · rw [advancePhase_exit B P tf dsD (Or.inr (Or.inl
              (by rw [hDrv]; exact hev)))] at heq
            exact absurd heq (by simp)
          · by_cases hte : r.ret = IDA_TSTOP_RETURN
            · -- intermediate stop time: advance the eval cursor
              have htret : r.tret = P.t_eval.getD ds.i_eval 0 := by
                rw [hstopex hte, htev]
              have hie_lt : ds.i_eval + 1 < P.t_eval.length := by
                by_contra hcon
                have h2 : ds.i_eval = P.t_eval.length - 1 := by omega
                have h3 : r.tret = tf := by
                  rw [htret, h2, htf]
                exact hfin (le_of_eq h3.symm)
              rw [advancePhase_tstop B P tf dsD
                (by rw [hDtv]; exact hfin)
                (by rw [hDrv]; exact hte)
                (by rw [hDie]; omega)] at heq
              rw [Sum.inl.injEq] at heq
              subst heq
              have hrecorded := hDrec_tstop hte
              refine ⟨hDchain, hDnt, ?_, ?_, ?_, ?_, ?_, ?_, ?_, ?_, ?_, ?_,
                ?_⟩
              · intro x hx
                show x ≤ dsD.t_val
                rw [hDtv]
                exact hDall x hx
              · show dsD.t_val = B.curT (backendConsistentInit B P.isODE
                  (B.reinit dsD.ints dsD.t_val) dsD.t_val
                  (P.t_eval.getD (dsD.i_eval + 1) 0) IDA_YA_YDP_INIT)
                rw [curT_backendConsistentInit B hB, hB.curT_reinit]
              · show dsD.i_interp ≤ P.t_interp.length
                rw [hDii]
                exact hm2
              · intro hsv hlt
                have hlt2 : m < P.t_interp.length := by
                  have h3 : dsD.i_interp < P.t_interp.length := hlt
                  rw [hDii] at h3
                  exact h3
                show dsD.t_interp_next = P.t_interp.getD dsD.i_interp 0
                  ∧ dsD.t_val ≤ dsD.t_interp_next
                rw [hDii, hDtv]
                exact hJ6D hsv hlt2
              · intro hpe
                have hpe2 : PairEnd (recTimes dsD) := hpe
                have h2 := hJ7D hpe2
                show P.save_interp_steps = false
                  ∨ P.t_interp.length ≤ dsD.i_interp
                  ∨ (recTimes dsD).getLastD 0 < dsD.t_interp_next
                rw [hDii]
                exact h2
              · show 1 ≤ dsD.i_eval + 1
                omega
              · show dsD.i_eval + 1 < P.t_eval.length
                rw [hDie]
                exact hie_lt
              · show P.t_eval.getD (dsD.i_eval + 1) 0
                  = P.t_eval.getD (dsD.i_eval + 1) 0
                rfl
              · intro j hj
                have hj2 : j < dsD.i_eval + 1 := hj
                rw [hDie] at hj2
                show P.t_eval.getD j 0 ∈ recTimes dsD
                rcases Nat.lt_or_ge j ds.i_eval with hj3 | hj3
                · exact hK1D j hj3
                · have hje : j = ds.i_eval := by omega
                  rw [hje, ← htret, hrecorded]
                  exact List.mem_append_right _ (List.mem_singleton.mpr rfl)
              · intro hsv j hj
                have hj2 : j < dsD.i_interp := hj
                rw [hDii] at hj2
                show P.t_interp.getD j 0 ∈ recTimes dsD
                exact hK4D hsv j hj2
              · show dsD.done = false
                exact hDdn
            · -- plain success step: only `t_prev` advances
              rw [advancePhase_plain B P tf dsD
                (by rw [hDtv]; exact hfin)
                (by rw [hDrv]; exact hte)
                (by rw [hDrv]; exact hev)] at heq
              rw [Sum.inl.injEq] at heq
              subst heq
              refine ⟨hDchain, hDnt, ?_, ?_, ?_, ?_, ?_, ?_, ?_, ?_, ?_, ?_,
                ?_⟩
              · intro x hx
                show x ≤ dsD.t_val
                rw [hDtv]
                exact hDall x hx
              · show dsD.t_val = B.curT dsD.ints
                rw [hDtv, hDct]
              · show dsD.i_interp ≤ P.t_interp.length
                rw [hDii]
                exact hm2
              · intro hsv hlt
                have hlt2 : m < P.t_interp.length := by
                  have h3 : dsD.i_interp < P.t_interp.length := hlt
                  rw [hDii] at h3
                  exact h3
                show dsD.t_interp_next = P.t_interp.getD dsD.i_interp 0
                  ∧ dsD.t_val ≤ dsD.t_interp_next
                rw [hDii, hDtv]
                exact hJ6D hsv hlt2
              · intro hpe
                have hpe2 : PairEnd (recTimes dsD) := hpe
                have h2 := hJ7D hpe2
                show P.save_interp_steps = false
                  ∨ P.t_interp.length ≤ dsD.i_interp
                  ∨ (recTimes dsD).getLastD 0 < dsD.t_interp_next
                rw [hDii]
                exact h2
              · show 1 ≤ dsD.i_eval
                rw [hDie]
                exact hie1
              · show dsD.i_eval < P.t_eval.length
                rw [hDie]
                exact hielt
              · show dsD.t_eval_next = P.t_eval.getD dsD.i_eval 0
                rw [hDten, hDie]
                exact htev
              · intro j hj
                have hj2 : j < dsD.i_eval := hj
                rw [hDie] at hj2
                show P.t_eval.getD j 0 ∈ recTimes dsD
                exact hK1D j hj2
              · intro hsv j hj
                have hj2 : j < dsD.i_interp := hj
                rw [hDii] at hj2
                show P.t_interp.getD j 0 ∈ recTimes dsD
                exact hK4D hsv j hj2
              · show dsD.done = false
                exact hDdn
      · -- exit: monotone times and schedule completeness
        intro ds' heq
        have hexit : ∀ h, heq = h → True := fun _ _ => trivial
        have hgoal : (tf ≤ r.tret ∨ r.ret = IDA_ROOT_RETURN) →
            ExitInv P { dsD with done := true } := by
          intro hcase
          refine ⟨hDchain, hDnt, ?_⟩
          intro _
          constructor
          · -- every eval point inside the traversed interval is recorded
            intro j hj hjle
            show P.t_eval.getD j 0 ∈ recTimes dsD
            have hjle2 : P.t_eval.getD j 0 ≤ r.tret := by
              have h3 : P.t_eval.getD j 0 ≤ dsD.t_val := hjle
              rw [hDtv] at h3
              exact h3
            rcases Nat.lt_or_ge j ds.i_eval with hj2 | hj2
            · exact hK1D j hj2
            · have hts_le : ds.t_eval_next ≤ P.t_eval.getD j 0 := by
                rw [htev]
                exact pairwise_le_getD P.t_eval hS.t_eval_sorted _ _ hj2 hj
              have heq2 : r.tret = ds.t_eval_next := le_antisymm hlestop
                (le_trans hts_le hjle2)
              have hje : P.t_eval.getD j 0 = r.tret := le_antisymm hjle2
                (by rw [heq2]; exact hts_le)
              have hte : r.ret = IDA_TSTOP_RETURN := by
                rcases hcls with h | h | h
                · exfalso
                  have := hltstop (Or.inl h)
                  rw [heq2] at this
                  exact lt_irrefl _ this
                · exact h
                · exfalso
                  have := hltstop (Or.inr h)
                  rw [heq2] at this
                  exact lt_irrefl _ this
              rw [hDrec_tstop hte, hje]
              exact List.mem_append_right _ (List.mem_singleton.mpr rfl)
          · -- every interp point inside the traversed interval is recorded
            intro hsv j hj hjle
            show P.t_interp.getD j 0 ∈ recTimes dsD
            have hjle2 : P.t_interp.getD j 0 ≤ r.tret := by
              have h3 : P.t_interp.getD j 0 ≤ dsD.t_val := hjle
              rw [hDtv] at h3
              exact h3
            rcases Nat.lt_or_ge j m with hj2 | hj2
            · exact hK4D hsv j hj2
            · exfalso
              by_cases ht : hti = true
              · have hmlt : m < P.t_interp.length := by omega
                have h2 := hCtin_lt ht hmlt
                have h3 : P.t_interp.getD m 0 ≤ P.t_interp.getD j 0 :=
                  pairwise_le_getD P.t_interp hS.t_interp_sorted _ _ hj2 hj
                have h4 : r.tret < P.t_interp.getD j 0 :=
                  lt_of_lt_of_le h2 h3
                exact absurd hjle2 (not_le.mpr h4)
              · have hf : hti = false := bfalse hti ht
                have h2 := (hCfalse hf).1
                have h3 := hfalse_len hf hsv
                omega
        by_cases hfin : tf ≤ r.tret
        · rw [advancePhase_exit B P tf dsD (Or.inl (by rw [hDtv]; exact hfin))]
            at heq
          rw [Sum.inr.injEq] at heq
          subst heq
          exact hgoal (Or.inl hfin)
        · by_cases hev : r.ret = IDA_ROOT_RETURN
          · rw [advancePhase_exit B P tf dsD (Or.inr (Or.inl
              (by rw [hDrv]; exact hev)))] at heq
            rw [Sum.inr.injEq] at heq
            subst heq
            exact hgoal (Or.inr hev)
          · by_cases hte : r.ret = IDA_TSTOP_RETURN
            · rw [advancePhase_tstop B P tf dsD
                (by rw [hDtv]; exact hfin)
                (by rw [hDrv]; exact hte)
                (by rw [hDie]; omega)] at heq
              exact absurd heq (by simp)
            · rw [advancePhase_plain B P tf dsD
                (by rw [hDtv]; exact hfin)
                (by rw [hDrv]; exact hte)
                (by rw [hDrv]; exact hev)] at heq
              exact absurd heq (by simp)

theorem headD_eq_getD (l : List ℚ) (h : l ≠ []) : l.headD 0 = l.getD 0 0 := by
  cases l with
  | nil => exact absurd rfl h
  | cons a t => rfl

/-- The loop invariant holds right after the preamble of `solve`. -/
theorem solveInit_inv {σ : Type} (B : Backend σ) (P : SolveParams)
    (hB : BackendContract B) (hS : ScheduleOK P)
    (s0 : σ) (y0 yp0 : List ℚ) (yS0 ypS0 : List (List ℚ)) :
    DriverInv B P (solveInit B P s0 y0 yp0 yS0 ypS0) := by
  have h2len : 2 ≤ P.t_eval.length := hS.t_eval_two
  have hne : P.t_eval ≠ [] := by
    intro h
    rw [h] at h2len
    simp at h2len
  have hhead : P.t_eval.headD 0 = P.t_eval.getD 0 0 := headD_eq_getD _ hne
  have hct : B.curT (solveInit B P s0 y0 yp0 yS0 ypS0).ints
      = P.t_eval.headD 0 := by
    show B.curT (if P.sensitivity then _ else _) = _
    by_cases h1 : P.sensitivity <;> by_cases h2 : P.calc_ic <;>
      simp [h1, h2, hB.curT_getsensdky, curT_backendConsistentInit B hB,
        hB.curT_reinit, hB.curT_load]
  have hrec : recTimes (solveInit B P s0 y0 yp0 yS0 ypS0)
      = [P.t_eval.headD 0] := by
    show ((setStepRecord B _ (P.t_eval.headD 0) []).map Prod.fst) = _
    simp [setStepRecord]
  refine ⟨?_, ?_, ?_, ?_, ?_, ?_, ?_, ?_, ?_, ?_, ?_, ?_, ?_⟩
  · rw [hrec]
    simp
  · rw [hrec]
    intro n h
    simp at h
  · rw [hrec]
    intro x hx
    rw [List.mem_singleton] at hx
    show x ≤ P.t_eval.headD 0
    exact le_of_eq hx
  · show P.t_eval.headD 0 = B.curT (solveInit B P s0 y0 yp0 yS0 ypS0).ints
    rw [hct]
  · show 0 ≤ P.t_interp.length
    omega
  · intro hsv hlt
    show (if P.save_interp_steps then P.t_interp.getD 0 0 else 0)
        = P.t_interp.getD 0 0
      ∧ P.t_eval.headD 0 ≤ (if P.save_interp_steps then P.t_interp.getD 0 0 else 0)
    rw [if_pos hsv]
    refine ⟨rfl, ?_⟩
    rw [hhead]
    exact hS.t_interp_lb _ (getD_mem P.t_interp 0 0 hlt)
  · intro hpe
    exfalso
    have h2 := hpe.1
    rw [hrec] at h2
    simp at h2
  · show 1 ≤ 1
    exact le_refl 1
  · show 1 < P.t_eval.length
    omega
  · show P.t_eval.getD 1 0 = P.t_eval.getD 1 0
    rfl
  · intro j hj
    have hj1 : j < 1 := hj
    have hj0 : j = 0 := by omega
    rw [hrec, hj0, ← hhead]
    exact List.mem_singleton.mpr rfl
  · intro _ j hj
    have hj0 : j < 0 := hj
    exact absurd hj0 (by omega)
  · show false = false
    rfl

/-- One unfolding of the stepping loop. -/
theorem solveLoop_succ {σ : Type} (B : Backend σ) (P : SolveParams) (tf : ℚ)
    (n : ℕ) (ds : DriverState σ) :
    solveLoop B P tf (n + 1) ds = match loopIter B P tf ds with
      | .inr d => d
      | .inl d => solveLoop B P tf n d := rfl

/-- The loop invariant propagated through the stepping loop: the recorded
times stay monotone with at most paired duplicates, and on a self-exit
the exit facts hold. -/
theorem solveLoop_spec {σ : Type} (B : Backend σ) (P : SolveParams) (tf : ℚ)
    (hB : BackendContract B) (hS : ScheduleOK P)
    (htf : tf = P.t_eval.getD (P.t_eval.length - 1) 0) :
    ∀ (fuel : ℕ) (ds : DriverState σ), DriverInv B P ds →
    (List.Chain' (· ≤ ·) (recTimes (solveLoop B P tf fuel ds))
      ∧ NoTriple (recTimes (solveLoop B P tf fuel ds)))
    ∧ ((solveLoop B P tf fuel ds).done = true →
        ExitInv P (solveLoop B P tf fuel ds)) := by
  intro fuel
  induction fuel with
  | zero =>
    intro ds hInv
    refine ⟨⟨hInv.1, hInv.2.1⟩, ?_⟩
    intro hd
    exfalso
    have hdone : ds.done = false :=
      hInv.2.2.2.2.2.2.2.2.2.2.2.2
    have hd' : ds.done = true := hd
    rw [hdone] at hd'
    exact Bool.noConfusion hd'
  | succ n ih =>
    intro ds hInv
    obtain ⟨hcont, hexit⟩ := loopIter_inv B P tf hB hS htf ds hInv
    cases hit : loopIter B P tf ds with
    | inr ds1 =>
      have hrun : solveLoop B P tf (n + 1) ds = ds1 := by
        rw [solveLoop_succ, hit]
      rw [hrun]
      have he := hexit ds1 hit
      exact ⟨⟨he.1, he.2.1⟩, fun _ => he⟩
    | inl ds1 =>
      have hrun : solveLoop B P tf (n + 1) ds = solveLoop B P tf n ds1 := by
        rw [solveLoop_succ, hit]
      rw [hrun]
      exact ih ds1 (hcont ds1 hit)

/-! ## Claims C3 and C2: recorded-time monotonicity and schedule
completeness -/

/-- C3: for every solve (any fuel, any point of the run), the recorded
snapshot times are non-decreasing, and three consecutive equal recorded
times never occur — equal consecutive times come only as the single
back-to-back pair produced by an interpolation point coinciding with a
forced stop. -/
theorem claim_C3 {σ : Type} (B : Backend σ) (P : SolveParams) (s0 : σ)
    (y0 yp0 : List ℚ) (yS0 ypS0 : List (List ℚ)) (fuel : ℕ)
    (hB : BackendContract B) (hS : ScheduleOK P) :
    List.Chain' (· ≤ ·) (recTimes (solveRun B P s0 y0 yp0 yS0 ypS0 fuel))
    ∧ NoTriple (recTimes (solveRun B P s0 y0 yp0 yS0 ypS0 fuel)) := by
  unfold solveRun
  exact (solveLoop_spec B P (P.t_eval.getLastD 0) hB hS
    (getLastD_eq_getD P.t_eval) fuel (solveInit B P s0 y0 yp0 yS0 ypS0)
    (solveInit_inv B P hB hS s0 y0 yp0 yS0 ypS0)).1

/-- C2: if the stepping loop exits by itself without an integrator
failure, every `t_eval` point inside the traversed interval is among the
recorded times, and — with interpolation saving on — so is every
`t_interp` point inside the traversed interval. -/
theorem claim_C2 {σ : Type} (B : Backend σ) (P : SolveParams) (s0 : σ)
    (y0 yp0 : List ℚ) (yS0 ypS0 : List (List ℚ)) (fuel : ℕ)
    (hB : BackendContract B) (hS : ScheduleOK P)
    (hdone : (solveRun B P s0 y0 yp0 yS0 ypS0 fuel).done = true)
    (hok : 0 ≤ (solveRun B P s0 y0 yp0 yS0 ypS0 fuel).retval) :
    (∀ j < P.t_eval.length,
      P.t_eval.getD j 0 ≤ (solveRun B P s0 y0 yp0 yS0 ypS0 fuel).t_val →
      P.t_eval.getD j 0 ∈ recTimes (solveRun B P s0 y0 yp0 yS0 ypS0 fuel))
    ∧ (P.save_interp_steps = true → ∀ x ∈ P.t_interp,
      x ≤ (solveRun B P s0 y0 yp0 yS0 ypS0 fuel).t_val →
      x ∈ recTimes (solveRun B P s0 y0 yp0 yS0 ypS0 fuel)) := by
  have hspec := (solveLoop_spec B P (P.t_eval.getLastD 0) hB hS
    (getLastD_eq_getD P.t_eval) fuel (solveInit B P s0 y0 yp0 yS0 ypS0)
    (solveInit_inv B P hB hS s0 y0 yp0 yS0 ypS0)).2
  have hexit := hspec hdone
  have hcomp := hexit.2.2 hok
  refine ⟨hcomp.1, ?_⟩
  intro hsv x hx hxle
  rw [List.mem_iff_getElem] at hx
  obtain ⟨j, hj, hje⟩ := hx
  have hxd : x = P.t_interp.getD j 0 := by
    rw [List.getD_eq_getElem P.t_interp 0 hj, hje]
  rw [hxd]
  apply hcomp.2 hsv j hj
  rw [← hxd]
  exact hxle

/-- `timeBackend` satisfies the IDA back-end contract. -/
theorem timeBackend_contract : BackendContract timeBackend := by
  constructor
  · intro s tf ts h
    unfold timeBackend at h ⊢
    simp only at h ⊢
    by_cases hc : s ≤ ts
    · rw [if_pos hc]
      exact Or.inr (Or.inl rfl)
    · rw [if_neg hc] at h
      norm_num at h
  · intro s tf ts h
    unfold timeBackend at h ⊢
    simp only at h ⊢
    by_cases hc : s ≤ ts
    · rw [if_pos hc]
      exact hc
    · rw [if_neg hc] at h
      norm_num at h
  · intro s tf ts h
    unfold timeBackend at h ⊢
    simp only at h ⊢
    by_cases hc : s ≤ ts
    · rw [if_pos hc]
    · rw [if_neg hc] at h
      norm_num at h
  · intro s tf ts h
    unfold timeBackend at h ⊢
    simp only at h ⊢
    by_cases hc : s ≤ ts
    · rw [if_pos hc]
    · rw [if_neg hc] at h
      norm_num at h
  · intro s tf ts h
    unfold timeBackend at h ⊢
    simp only at h ⊢
    by_cases hc : s ≤ ts
    · rw [if_pos hc]
    · rw [if_neg hc] at h
      simp [IDA_TSTOP_RETURN] at h
  · intro s tf ts h
    unfold timeBackend at h ⊢
    simp only at h ⊢
    by_cases hc : s ≤ ts
    · rw [if_pos hc] at h
      rcases h with h | h
      · simp [IDA_TSTOP_RETURN, IDA_SUCCESS] at h
      · simp [IDA_TSTOP_RETURN, IDA_ROOT_RETURN] at h
    · rw [if_neg hc] at h
      rcases h with h | h
      · simp [IDA_SUCCESS] at h
      · simp [IDA_ROOT_RETURN] at h
  · intro s t
    rfl
  · intro s t
    rfl
  · intro s t
    rfl
  · intro s i t
    rfl
  · intro s t
    rfl
  · intro s y yp yS ypS
    rfl

/-- The sample solve request satisfies the schedule preconditions. -/
theorem sampleSchedule : ScheduleOK sampleParams := by
  constructor
  · decide
  · decide
  · decide
  · intro x hx
    simp [sampleParams] at hx
  · intro h
    simp [sampleParams] at h

/-- Evaluation of C3 on a concrete run of `timeBackend`. -/
theorem claim_C3_witness :
    List.Chain' (· ≤ ·) (recTimes (solveRun timeBackend sampleParams 0
      [1, 2] [0, 0] [] [] 3))
    ∧ NoTriple (recTimes (solveRun timeBackend sampleParams 0
      [1, 2] [0, 0] [] [] 3)) :=
  claim_C3 timeBackend sampleParams 0 [1, 2] [0, 0] [] [] 3
    timeBackend_contract sampleSchedule

/-- Evaluation of C2 on a concrete run of `timeBackend`: the final eval
point `t = 1` is recorded. -/
theorem claim_C2_witness :
    sampleParams.t_eval.getD 1 0 ∈ recTimes (solveRun timeBackend
      sampleParams 0 [1, 2] [0, 0] [] [] 3) :=
  (claim_C2 timeBackend sampleParams 0 [1, 2] [0, 0] [] [] 3
    timeBackend_contract sampleSchedule (by decide) (by decide)).1 1
    (by decide) (by decide)

/-! ## Generic list lemmas for the counting-sort development -/

theorem length_flatMap_sum {α β : Type} (l : List α) (g : α → List β) :
    (l.flatMap g).length = (l.map fun a => (g a).length).sum := by
  induction l with
  | nil => rfl
  | cons x xs ih => simp [List.flatMap_cons, ih]

theorem range_split (v A : ℕ) (h : v ≤ A) :
    List.range A = List.range v ++ List.range' v (A - v) := by
  induction A with
  | zero =>
    have hv0 : v = 0 := by omega
    simp [hv0]
  | succ n ih =>
    rcases Nat.lt_or_ge v (n + 1) with hv | hv
    · have hvn : v ≤ n := by omega
      rw [List.range_succ, ih hvn]
      have hd : n + 1 - v = (n - v) + 1 := by omega
      rw [hd, List.append_assoc]
      congr 1
      rw [List.range'_1_concat]
      have he : v + (n - v) = n := by omega
      rw [he]
    · have hv1 : v = n + 1 := by omega
      subst hv1
      simp

theorem countP_map' {α β : Type} (l : List α) (g : α → β) (p : β → Bool) :
    (l.map g).countP p = l.countP (fun x => p (g x)) := by
  induction l with
  | nil => rfl
  | cons x xs ih => simp [List.countP_cons, ih]

theorem countP_replicate' {α : Type} (p : α → Bool) (k : ℕ) (a : α) :
    (List.replicate k a).countP p = if p a then k else 0 := by
  induction k with
  | zero => simp
  | succ n ih =>
    rw [List.replicate_succ, List.countP_cons, ih]
    by_cases h : p a <;> simp [h]

theorem countP_flatMap {α β : Type} (l : List α) (g : α → List β)
    (p : β → Bool) :
    (l.flatMap g).countP p = (l.map fun a => (g a).countP p).sum := by
  induction l with
  | nil => rfl
  | cons x xs ih => simp [List.flatMap_cons, List.countP_append, ih]

theorem countP_congr_mem {α : Type} (l : List α) (p q : α → Bool) :
    (∀ x ∈ l, p x = q x) → l.countP p = l.countP q := by
  induction l with
  | nil => intro _; rfl
  | cons x xs ih =>
    intro h
    rw [List.countP_cons, List.countP_cons,
      ih (fun y hy => h y (List.mem_cons_of_mem _ hy)),
      h x (List.mem_cons_self x xs)]

theorem countP_range_getD {α : Type} [Inhabited α] (l : List α)
    (p : α → Bool) (d : α) :
    l.countP p = (List.range l.length).countP (fun i => p (l.getD i d)) := by
  induction l with
  | nil => rfl
  | cons x xs ih =>
    rw [List.countP_cons, List.length_cons, List.range_succ_eq_map,
      List.countP_cons, countP_map']
    simp only [List.getD_cons_zero, List.getD_cons_succ]
    rw [← ih]

theorem getD_set_ne {α : Type} (l : List α) (i j : ℕ) (a d : α)
    (h : i ≠ j) : (l.set i a).getD j d = l.getD j d := by
  simp [List.getD_eq_getElem?_getD, List.getElem?_set_ne h]

theorem getD_set_self {α : Type} (l : List α) (i : ℕ) (a d : α)
    (h : i < l.length) : (l.set i a).getD i d = a := by
  simp [List.getD_eq_getElem?_getD, List.getElem?_set_self, h]

theorem getD_take' {α : Type} (l : List α) (n x : ℕ) (d : α) (h : x < n) :
    (l.take n).getD x d = l.getD x d := by
  simp [List.getD_eq_getElem?_getD, List.getElem?_take, h]

theorem getD_replicate' {α : Type} (k j : ℕ) (x d : α) (h : j < k) :
    (List.replicate k x).getD j d = x := by
  simp [List.getD_eq_getElem?_getD, List.getElem?_replicate, h]

theorem getD_default {α : Type} (l : List α) (n : ℕ) (d : α)
    (h : l.length ≤ n) : l.getD n d = d := by
  simp [List.getD_eq_getElem?_getD, List.getElem?_eq_none h]

theorem mem_getD {α : Type} (l : List α) (x : α) (d : α) (h : x ∈ l) :
    ∃ n, n < l.length ∧ l.getD n d = x := by
  rw [List.mem_iff_getElem] at h
  obtain ⟨n, hn, he⟩ := h
  exact ⟨n, hn, by rw [List.getD_eq_getElem l d hn, he]⟩

theorem ext_getD {α : Type} (l₁ l₂ : List α) (d : α)
    (hl : l₁.length = l₂.length)
    (h : ∀ i < l₁.length, l₁.getD i d = l₂.getD i d) : l₁ = l₂ := by
  apply List.ext_getElem hl
  intro i h1 h2
  have := h i h1
  rw [List.getD_eq_getElem l₁ d h1, List.getD_eq_getElem l₂ d h2] at this
  exact this

theorem flatMap_prefix_getD {α : Type} (A : ℕ) (g : ℕ → List α)
    (v off : ℕ) (d : α) (hv : v < A) (hoff : off < (g v).length) :
    ((List.range A).flatMap g).getD
      (((List.range v).map fun u => (g u).length).sum + off) d
      = (g v).getD off d := by
  rw [range_split v A (le_of_lt hv), List.flatMap_append]
  have hlen : ((List.range v).flatMap g).length
      = ((List.range v).map fun u => (g u).length).sum :=
    length_flatMap_sum _ _
  rw [getD_append_ge _ _ _ _ (by rw [hlen]; omega)]
  rw [hlen]
  have hoffe : ((List.range v).map fun u => (g u).length).sum + off
      - ((List.range v).map fun u => (g u).length).sum = off := by omega
  rw [hoffe]
  have hd : A - v = (A - v - 1) + 1 := by omega
  rw [hd, List.range'_succ, List.flatMap_cons]
  exact getD_append_lt _ _ _ _ hoff

/-! ## Arithmetic of the counting-sort slot map -/

theorem cntLt_zero (c : List ℕ) : cntLt c 0 = 0 := by
  unfold cntLt
  rw [List.countP_eq_zero]
  intro a _
  simp

theorem cntLt_succ (c : List ℕ) (v : ℕ) :
    cntLt c (v + 1) = cntLt c v + c.countP (fun x => decide (x = v)) := by
  induction c with
  | nil => rfl
  | cons a t ih =>
    simp only [cntLt, List.countP_cons] at ih ⊢
    rw [ih]
    by_cases h1 : a < v + 1 <;> by_cases h2 : a < v <;> by_cases h3 : a = v <;>
      simp [h1, h2, h3] <;> omega

theorem cntLt_mono (c : List ℕ) (v w : ℕ) (h : v ≤ w) :
    cntLt c v ≤ cntLt c w :=
  List.countP_mono_left (fun x _ hx => by
    simp only [decide_eq_true_eq] at hx ⊢
    omega)

theorem cntLt_all (c : List ℕ) (cols : ℕ) (h : ∀ x ∈ c, x < cols) :
    cntLt c cols = c.length :=
  List.countP_eq_length.mpr (fun x hx => by simp [h x hx])

theorem getD_memN (c : List ℕ) (i d : ℕ) (h : i < c.length) :
    c.getD i d ∈ c := by
  rw [List.getD_eq_getElem c d h]
  exact List.getElem_mem h

theorem rnk_succ_le (c : List ℕ) (i : ℕ) (hi : i < c.length) :
    rnk c i + 1 ≤ c.countP (fun x => decide (x = c.getD i 0)) := by
  rw [countP_range_getD c _ 0, range_split (i + 1) c.length hi,
    List.countP_append]
  have h1 : (List.range (i + 1)).countP
      (fun j => decide (c.getD j 0 = c.getD i 0)) = rnk c i + 1 := by
    rw [List.range_succ, List.countP_append]
    simp [rnk]
  omega

theorem slot_lt_cntLt_succ (c : List ℕ) (i : ℕ) (hi : i < c.length) :
    slot c i < cntLt c (c.getD i 0 + 1) := by
  rw [cntLt_succ]
  have := rnk_succ_le c i hi
  unfold slot
  omega

theorem slot_lt (c : List ℕ) (cols : ℕ) (hcv : ∀ x ∈ c, x < cols)
    (i : ℕ) (hi : i < c.length) : slot c i < c.length := by
  have h1 := slot_lt_cntLt_succ c i hi
  have hk : c.getD i 0 < cols := hcv _ (getD_memN c i 0 hi)
  have h2 : cntLt c (c.getD i 0 + 1) ≤ cntLt c cols := cntLt_mono c _ _ hk
  have h3 := cntLt_all c cols hcv
  omega

theorem slot_lt_slot_key_lt (c : List ℕ) (i j : ℕ) (hj : j < c.length)
    (h : c.getD i 0 < c.getD j 0) (hi : i < c.length) :
    slot c i < slot c j := by
  have h1 := slot_lt_cntLt_succ c i hi
  have h2 : cntLt c (c.getD i 0 + 1) ≤ cntLt c (c.getD j 0) :=
    cntLt_mono c _ _ h
  have h3 : cntLt c (c.getD j 0) ≤ slot c j := Nat.le_add_right _ _
  omega

theorem slot_lt_slot_key_eq (c : List ℕ) (i j : ℕ) (hij : i < j)
    (h : c.getD i 0 = c.getD j 0) : slot c i < slot c j := by
  have hrnk : rnk c i + 1 ≤ rnk c j := by
    unfold rnk
    rw [range_split (i + 1) j hij, List.countP_append, List.range_succ,
      List.countP_append]
    have hpe : (List.range i).countP (fun x => decide (c.getD x 0 = c.getD j 0))
        = (List.range i).countP (fun x => decide (c.getD x 0 = c.getD i 0)) :=
      countP_congr_mem _ _ _ (fun x _ => by rw [h])
    rw [hpe]
    have hone : ([i] : List ℕ).countP
        (fun x => decide (c.getD x 0 = c.getD j 0)) = 1 := by
      rw [List.countP_cons, List.countP_nil, h]
      simp
    rw [hone]
    omega
  unfold slot
  rw [h]
  omega

theorem slot_inj (c : List ℕ) (i j : ℕ) (hi : i < c.length)
    (hj : j < c.length) (hs : slot c i = slot c j) : i = j := by
  rcases Nat.lt_trichotomy (c.getD i 0) (c.getD j 0) with hk | hk | hk
  · exact absurd hs (Nat.ne_of_lt (slot_lt_slot_key_lt c i j hj hk hi))
  · rcases Nat.lt_trichotomy i j with hij | hij | hij
    · exact absurd hs (Nat.ne_of_lt (slot_lt_slot_key_eq c i j hij hk))
    · exact hij
    · exact absurd hs.symm
        (Nat.ne_of_lt (slot_lt_slot_key_eq c j i hij hk.symm))
  · exact absurd hs.symm
      (Nat.ne_of_lt (slot_lt_slot_key_lt c j i hi hk hj))

theorem slot_lt_slot_iff (c : List ℕ) (i j : ℕ) (hi : i < c.length)
    (hj : j < c.length) :
    slot c i < slot c j ↔
      (c.getD i 0 < c.getD j 0
        ∨ (c.getD i 0 = c.getD j 0 ∧ i < j)) := by
  constructor
  · intro hs
    rcases Nat.lt_trichotomy (c.getD i 0) (c.getD j 0) with hk | hk | hk
    · exact Or.inl hk
    · rcases Nat.lt_trichotomy i j with hij | hij | hij
      · exact Or.inr ⟨hk, hij⟩
      · subst hij
        omega
      · have := slot_lt_slot_key_eq c j i hij hk.symm
        omega
    · have := slot_lt_slot_key_lt c j i hi hk hj
      omega
  · intro hs
    rcases hs with hk | ⟨hk, hij⟩
    · exact slot_lt_slot_key_lt c i j hj hk hi
    · exact slot_lt_slot_key_eq c i j hij hk

theorem slot_surj (c : List ℕ) (cols : ℕ) (hcv : ∀ x ∈ c, x < cols)
    (x : ℕ) (hx : x < c.length) : ∃ i, i < c.length ∧ slot c i = x := by
  rcases Nat.eq_zero_or_pos c.length with h0 | hpos
  · omega
  · have hF : Function.Injective
        (fun i : Fin c.length => (⟨slot c i.1,
          slot_lt c cols hcv i.1 i.2⟩ : Fin c.length)) := by
      intro a b hab
      have := congrArg Fin.val hab
      simp only at this
      exact Fin.ext (slot_inj c a.1 b.1 a.2 b.2 this)
    have hsurj := Finite.injective_iff_surjective.mp hF
    obtain ⟨i, hi⟩ := hsurj ⟨x, hx⟩
    refine ⟨i.1, i.2, ?_⟩
    have := congrArg Fin.val hi
    simpa using this

/-! ## The counter and prefix passes of csc_csr -/

theorem countPass_fold_length (c : List ℕ) :
    ∀ a : List ℕ, (c.foldl (fun nc ci => nc.set (ci + 1)
      (nc.getD (ci + 1) 0 + 1)) a).length = a.length := by
  induction c with
  | nil => intro a; rfl
  | cons x t ih => intro a; rw [List.foldl_cons, ih, List.length_set]

theorem countPass_length (c : List ℕ) (cols : ℕ) :
    (countPass c cols).length = cols + 1 := by
  unfold countPass
  rw [countPass_fold_length, List.length_replicate]

theorem countPass_fold_getD (cols : ℕ) :
    ∀ (c : List ℕ) (a : List ℕ), a.length = cols + 1 →
    (∀ x ∈ c, x < cols) → ∀ j, j ≤ cols →
    (c.foldl (fun nc ci => nc.set (ci + 1) (nc.getD (ci + 1) 0 + 1)) a).getD j 0
      = a.getD j 0 + c.countP (fun x => decide (x + 1 = j)) := by
  intro c
  induction c with
  | nil =>
    intro a _ _ j _
    simp
  | cons x t ih =>
    intro a ha hx j hj
    rw [List.foldl_cons,
      ih _ (by rw [List.length_set]; exact ha)
        (fun y hy => hx y (List.mem_cons_of_mem _ hy)) j hj,
      List.countP_cons]
    by_cases he : x + 1 = j
    · rw [← he, getD_set_self a (x + 1) _ 0
        (by rw [ha]; have := hx x (List.mem_cons_self x t); omega)]
      simp [he]
      omega
    · rw [getD_set_ne a (x + 1) j _ 0 he]
      simp [he]

theorem countPass_getD (c : List ℕ) (cols : ℕ) (hcv : ∀ x ∈ c, x < cols)
    (j : ℕ) (hj : j ≤ cols) :
    (countPass c cols).getD j 0 = c.countP (fun x => decide (x + 1 = j)) := by
  unfold countPass
  rw [countPass_fold_getD cols c _ (by rw [List.length_replicate]) hcv j hj,
    getD_replicate' (cols + 1) j 0 0 (by omega)]
  omega

theorem prefixPass_fold_length (L : List ℕ) :
    ∀ a : List ℕ, (L.foldl (fun a i => a.set i
      (a.getD i 0 + a.getD (i - 1) 0)) a).length = a.length := by
  induction L with
  | nil => intro a; rfl
  | cons x t ih => intro a; rw [List.foldl_cons, ih, List.length_set]

theorem prefixPass_length (nc : List ℕ) (cols : ℕ) :
    (prefixPass nc cols).length = nc.length := by
  unfold prefixPass
  rw [prefixPass_fold_length]

theorem countP_shift_eq (c : List ℕ) (m : ℕ) :
    c.countP (fun x => decide (x + 1 = m + 1))
      = c.countP (fun x => decide (x = m)) :=
  countP_congr_mem _ _ _ (fun x _ => decide_eq_decide.mpr (by omega))

theorem prefixPass_inv (c : List ℕ) (cols : ℕ) (hcv : ∀ x ∈ c, x < cols) :
    ∀ m, m ≤ cols →
    ((List.range' 1 m).foldl (fun a i => a.set i
        (a.getD i 0 + a.getD (i - 1) 0)) (countPass c cols)).length = cols + 1
    ∧ (∀ j, j ≤ m →
      ((List.range' 1 m).foldl (fun a i => a.set i
        (a.getD i 0 + a.getD (i - 1) 0)) (countPass c cols)).getD j 0
        = cntLt c j)
    ∧ (∀ j, m < j → j ≤ cols →
      ((List.range' 1 m).foldl (fun a i => a.set i
        (a.getD i 0 + a.getD (i - 1) 0)) (countPass c cols)).getD j 0
        = c.countP (fun x => decide (x + 1 = j))) := by
  intro m
  induction m with
  | zero =>
    intro _
    simp only [List.range'_zero, List.foldl_nil]
    refine ⟨countPass_length c cols, ?_, ?_⟩
    · intro j hj
      have hj0 : j = 0 := by omega
      subst hj0
      rw [countPass_getD c cols hcv 0 (by omega), cntLt_zero,
        List.countP_eq_zero]
      intro a _
      simp
    · intro j hmj hj
      exact countPass_getD c cols hcv j hj
  | succ m ih =>
    intro hm
    obtain ⟨ihlen, ihlo, ihhi⟩ := ih (by omega)
    rw [List.range'_1_concat, List.foldl_append, List.foldl_cons,
      List.foldl_nil]
    have hval : ((List.range' 1 m).foldl (fun a i => a.set i
        (a.getD i 0 + a.getD (i - 1) 0)) (countPass c cols)).getD (1 + m) 0
        = c.countP (fun x => decide (x + 1 = m + 1)) := by
      rw [show 1 + m = m + 1 by omega]
      exact ihhi (m + 1) (by omega) hm
    have hprev : ((List.range' 1 m).foldl (fun a i => a.set i
        (a.getD i 0 + a.getD (i - 1) 0)) (countPass c cols)).getD (1 + m - 1) 0
        = cntLt c m := by
      rw [show 1 + m - 1 = m by omega]
      exact ihlo m (le_refl m)
    refine ⟨by rw [List.length_set]; exact ihlen, ?_, ?_⟩
    · intro j hj
      rcases Nat.lt_or_ge j (m + 1) with hjm | hjm
      · rw [getD_set_ne _ _ _ _ _ (by omega)]
        exact ihlo j (by omega)
      · have hje : j = m + 1 := by omega
        subst hje
        rw [show (1 + m) = m + 1 by omega] at hval hprev ⊢
        rw [getD_set_self _ _ _ 0 (by rw [ihlen]; omega), hval, hprev,
          cntLt_succ, countP_shift_eq]
        omega
    · intro j hmj hj
      rw [getD_set_ne _ _ _ _ _ (by omega)]
      exact ihhi j (by omega) hj

theorem prefixPass_getD (c : List ℕ) (cols : ℕ) (hcv : ∀ x ∈ c, x < cols)
    (j : ℕ) (hj : j ≤ cols) :
    (prefixPass (countPass c cols) cols).getD j 0 = cntLt c j := by
  unfold prefixPass
  exact (prefixPass_inv c cols hcv cols (le_refl cols)).2.1 j hj

/-! ## The placement pass of csc_csr -/

theorem placePass_inv (f : List ℚ) (c rr nc : List ℕ) (N cols : ℕ)
    (hc : c.length = N) (hcv : ∀ x ∈ c, x < cols)
    (hnc : nc.length = cols + 1)
    (hncv : ∀ v, v ≤ cols → nc.getD v 0 = cntLt c v) :
    ∀ m, m ≤ N →
    ((List.range m).foldl
      (fun (st : List ℕ × List ℚ × List ℕ) i =>
        let x := st.1.getD (c.getD i 0) 0
        (st.1.set (c.getD i 0) (x + 1),
         st.2.1.set x (f.getD i 0),
         st.2.2.set x (rr.getD i 0)))
      (nc, List.replicate N (0 : ℚ), List.replicate N 0)).1.length = cols + 1
    ∧ ((List.range m).foldl
      (fun (st : List ℕ × List ℚ × List ℕ) i =>
        let x := st.1.getD (c.getD i 0) 0
        (st.1.set (c.getD i 0) (x + 1),
         st.2.1.set x (f.getD i 0),
         st.2.2.set x (rr.getD i 0)))
      (nc, List.replicate N (0 : ℚ), List.replicate N 0)).2.1.length = N
    ∧ ((List.range m).foldl
      (fun (st : List ℕ × List ℚ × List ℕ) i =>
        let x := st.1.getD (c.getD i 0) 0
        (st.1.set (c.getD i 0) (x + 1),
         st.2.1.set x (f.getD i 0),
         st.2.2.set x (rr.getD i 0)))
      (nc, List.replicate N (0 : ℚ), List.replicate N 0)).2.2.length = N
    ∧ (∀ v, v ≤ cols → ((List.range m).foldl
      (fun (st : List ℕ × List ℚ × List ℕ) i =>
        let x := st.1.getD (c.getD i 0) 0
        (st.1.set (c.getD i 0) (x + 1),
         st.2.1.set x (f.getD i 0),
         st.2.2.set x (rr.getD i 0)))
      (nc, List.replicate N (0 : ℚ), List.replicate N 0)).1.getD v 0
        = cntLt c v + (List.range m).countP (fun j => decide (c.getD j 0 = v)))
    ∧ (∀ i, i < m → ((List.range m).foldl
      (fun (st : List ℕ × List ℚ × List ℕ) i =>
        let x := st.1.getD (c.getD i 0) 0
        (st.1.set (c.getD i 0) (x + 1),
         st.2.1.set x (f.getD i 0),
         st.2.2.set x (rr.getD i 0)))
      (nc, List.replicate N (0 : ℚ), List.replicate N 0)).2.1.getD (slot c i) 0
        = f.getD i 0
      ∧ ((List.range m).foldl
      (fun (st : List ℕ × List ℚ × List ℕ) i =>
        let x := st.1.getD (c.getD i 0) 0
        (st.1.set (c.getD i 0) (x + 1),
         st.2.1.set x (f.getD i 0),
         st.2.2.set x (rr.getD i 0)))
      (nc, List.replicate N (0 : ℚ), List.replicate N 0)).2.2.getD (slot c i) 0
        = rr.getD i 0) := by
  intro m
  induction m with
  | zero =>
    intro _
    simp only [List.range_zero, List.foldl_nil]
    refine ⟨hnc, by rw [List.length_replicate], by rw [List.length_replicate],
      ?_, ?_⟩
    · intro v hv
      rw [List.countP_nil, hncv v hv]
      omega
    · intro i hi
      omega
  | succ m ih =>
    intro hm
    obtain ⟨h1, h2, h3, h4, h5⟩ := ih (by omega)
    rw [List.range_succ, List.foldl_append, List.foldl_cons, List.foldl_nil]
    set A := (List.range m).foldl
      (fun (st : List ℕ × List ℚ × List ℕ) i =>
        let x := st.1.getD (c.getD i 0) 0
        (st.1.set (c.getD i 0) (x + 1),
         st.2.1.set x (f.getD i 0),
         st.2.2.set x (rr.getD i 0)))
      (nc, List.replicate N (0 : ℚ), List.replicate N 0) with hA
    have hkm : c.getD m 0 < cols := hcv _ (getD_memN c m 0 (by omega))
    have hx : A.1.getD (c.getD m 0) 0 = slot c m := by
      rw [h4 (c.getD m 0) (le_of_lt hkm)]
      rfl
    have hslotm : slot c m < N := by
      have := slot_lt c cols hcv m (by omega)
      omega
    refine ⟨?_, ?_, ?_, ?_, ?_⟩
    · show (A.1.set (c.getD m 0) (A.1.getD (c.getD m 0) 0 + 1)).length
        = cols + 1
      rw [List.length_set]
      exact h1
    · show (A.2.1.set (A.1.getD (c.getD m 0) 0) (f.getD m 0)).length = N
      rw [List.length_set]
      exact h2
    · show (A.2.2.set (A.1.getD (c.getD m 0) 0) (rr.getD m 0)).length = N
      rw [List.length_set]
      exact h3
    · intro v hv
      show (A.1.set (c.getD m 0) (A.1.getD (c.getD m 0) 0 + 1)).getD v 0
        = cntLt c v + (List.range m ++ [m]).countP
            (fun j => decide (c.getD j 0 = v))
      rw [List.countP_append, List.countP_cons, List.countP_nil]
      by_cases he : c.getD m 0 = v
      · rw [← he, getD_set_self A.1 _ _ 0 (by rw [h1]; omega),
          h4 _ (le_of_lt hkm)]
        have hd : (if decide (c.getD m 0 = c.getD m 0) = true
            then 1 else 0) = 1 := by simp
        rw [hd]
        omega
      · rw [getD_set_ne A.1 _ _ _ 0 he, h4 v hv]
        have hd : (if decide (c.getD m 0 = v) = true
            then 1 else 0) = 0 := by rw [decide_eq_false he]; simp
        rw [hd]
        omega
    · intro i hi
      rcases Nat.lt_or_ge i m with him | him
      · have hslot_ne : A.1.getD (c.getD m 0) 0 ≠ slot c i := by
          rw [hx]
          intro hcon
          have := slot_inj c m i (by omega) (by omega) hcon
          omega
        constructor
        · show (A.2.1.set (A.1.getD (c.getD m 0) 0) (f.getD m 0)).getD
            (slot c i) 0 = f.getD i 0
          rw [getD_set_ne A.2.1 _ _ _ 0 hslot_ne]
          exact (h5 i him).1
        · show (A.2.2.set (A.1.getD (c.getD m 0) 0) (rr.getD m 0)).getD
            (slot c i) 0 = rr.getD i 0
          rw [getD_set_ne A.2.2 _ _ _ 0 hslot_ne]
          exact (h5 i him).2
      · have hie : i = m := by omega
        subst hie
        constructor
        · show (A.2.1.set (A.1.getD (c.getD i 0) 0) (f.getD i 0)).getD
            (slot c i) 0 = f.getD i 0
          rw [hx]
          exact getD_set_self A.2.1 _ _ 0 (by rw [h2]; exact hslotm)
        · show (A.2.2.set (A.1.getD (c.getD i 0) 0) (rr.getD i 0)).getD
            (slot c i) 0 = rr.getD i 0
          rw [hx]
          exact getD_set_self A.2.2 _ _ 0 (by rw [h3]; exact hslotm)

/-- The characterisation of one `csc_csr` application: the new pointer
array holds the running counts of the index values, and entry `i` of the
input lands in slot `slot c i` of the permuted data and expanded-index
outputs. -/
theorem csc_csr_spec (f : List ℚ) (c r : List ℕ) (N cols : ℕ)
    (hc : c.length = N) (hcv : ∀ x ∈ c, x < cols) :
    (csc_csr f c r N cols).1.length = N
    ∧ (csc_csr f c r N cols).2.1.length = cols + 1
    ∧ (csc_csr f c r N cols).2.2.length = N
    ∧ (∀ v, v ≤ cols → (csc_csr f c r N cols).2.1.getD v 0 = cntLt c v)
    ∧ (∀ i, i < N →
        (csc_csr f c r N cols).1.getD (slot c i) 0 = f.getD i 0
        ∧ (csc_csr f c r N cols).2.2.getD (slot c i) 0
            = (buildRR r N cols).getD i 0) := by
  have hnc_len : (prefixPass (countPass c cols) cols).length = cols + 1 := by
    rw [prefixPass_length, countPass_length]
  have hnc_v : ∀ v, v ≤ cols →
      (prefixPass (countPass c cols) cols).getD v 0 = cntLt c v :=
    fun v hv => prefixPass_getD c cols hcv v hv
  obtain ⟨g1, g2, g3, g4, g5⟩ := placePass_inv f c (buildRR r N cols)
    (prefixPass (countPass c cols) cols) N cols hc hcv hnc_len hnc_v N
    (le_refl N)
  exact ⟨g2, hnc_len, g3, hnc_v, fun i hi => g5 i hi⟩

/-! ## The segment expansion buildRR of csc_csr -/

theorem ptr_mono (r : List ℕ) (cols : ℕ)
    (hmono : ∀ v, v < cols → r.getD v 0 ≤ r.getD (v + 1) 0) :
    ∀ b, b ≤ cols → ∀ a, a ≤ b → r.getD a 0 ≤ r.getD b 0 := by
  intro b
  induction b with
  | zero =>
    intro _ a ha
    have ha0 : a = 0 := by omega
    subst ha0
    exact le_refl _
  | succ n ih =>
    intro hb a ha
    rcases Nat.lt_or_ge a (n + 1) with h | h
    · exact le_trans (ih (by omega) a (by omega)) (hmono n (by omega))
    · have hae : a = n + 1 := by omega
      subst hae
      exact le_refl _

theorem teleSum (r : List ℕ) (cols : ℕ) (hr0 : r.getD 0 0 = 0)
    (hmono : ∀ v, v < cols → r.getD v 0 ≤ r.getD (v + 1) 0) :
    ∀ v, v ≤ cols →
    ((List.range v).map fun u => r.getD (u + 1) 0 - r.getD u 0).sum
      = r.getD v 0 := by
  intro v
  induction v with
  | zero =>
    intro _
    simpa using hr0.symm
  | succ n ih =>
    intro hv
    rw [List.range_succ, List.map_append, List.sum_append, ih (by omega)]
    have hm := hmono n (by omega)
    have hone : (List.map (fun u => r.getD (u + 1) 0 - r.getD u 0) [n]).sum
        = r.getD (n + 1) 0 - r.getD n 0 := by
      simp
    rw [hone]
    omega

theorem buildRR_len_aux (r : List ℕ) (cols N : ℕ) (hr : r.length = cols + 1)
    (hr0 : r.getD 0 0 = 0)
    (hmono : ∀ v, v < cols → r.getD v 0 ≤ r.getD (v + 1) 0)
    (hrN : r.getD cols 0 = N) :
    ((List.range (cols + 1)).flatMap fun i =>
      List.replicate (r.getD (i + 1) 0 - r.getD i 0) i).length = N := by
  rw [length_flatMap_sum]
  simp only [List.length_replicate]
  rw [List.range_succ, List.map_append, List.sum_append,
    teleSum r cols hr0 hmono cols (le_refl cols)]
  have hout : r.getD (cols + 1) 0 = 0 := getD_default r (cols + 1) 0 (by omega)
  have hone : (List.map (fun u => r.getD (u + 1) 0 - r.getD u 0) [cols]).sum
      = r.getD (cols + 1) 0 - r.getD cols 0 := by
    simp
  rw [hone, hout, hrN]
  omega

theorem buildRR_eq (r : List ℕ) (cols N : ℕ) (hr : r.length = cols + 1)
    (hr0 : r.getD 0 0 = 0)
    (hmono : ∀ v, v < cols → r.getD v 0 ≤ r.getD (v + 1) 0)
    (hrN : r.getD cols 0 = N) :
    buildRR r N cols = (List.range (cols + 1)).flatMap fun i =>
      List.replicate (r.getD (i + 1) 0 - r.getD i 0) i := by
  unfold buildRR
  exact List.take_of_length_le
    (le_of_eq (buildRR_len_aux r cols N hr hr0 hmono hrN))

theorem buildRR_length (r : List ℕ) (cols N : ℕ) (hr : r.length = cols + 1)
    (hr0 : r.getD 0 0 = 0)
    (hmono : ∀ v, v < cols → r.getD v 0 ≤ r.getD (v + 1) 0)
    (hrN : r.getD cols 0 = N) :
    (buildRR r N cols).length = N := by
  rw [buildRR_eq r cols N hr hr0 hmono hrN]
  exact buildRR_len_aux r cols N hr hr0 hmono hrN

theorem buildRR_getD (r : List ℕ) (cols N : ℕ) (hr : r.length = cols + 1)
    (hr0 : r.getD 0 0 = 0)
    (hmono : ∀ v, v < cols → r.getD v 0 ≤ r.getD (v + 1) 0)
    (hrN : r.getD cols 0 = N) (v x : ℕ) (hv : v < cols)
    (hlo : r.getD v 0 ≤ x) (hhi : x < r.getD (v + 1) 0) :
    (buildRR r N cols).getD x 0 = v := by
  rw [buildRR_eq r cols N hr hr0 hmono hrN]
  have hS : ((List.range v).map fun u =>
      (List.replicate (r.getD (u + 1) 0 - r.getD u 0) u).length).sum
      = r.getD v 0 := by
    simp only [List.length_replicate]
    exact teleSum r cols hr0 hmono v (le_of_lt hv)
  have hxe : x = ((List.range v).map fun u =>
      (List.replicate (r.getD (u + 1) 0 - r.getD u 0) u).length).sum
      + (x - r.getD v 0) := by
    rw [hS]
    omega
  rw [hxe, flatMap_prefix_getD (cols + 1) _ v (x - r.getD v 0) 0 (by omega)
    (by rw [List.length_replicate]; omega)]
  exact getD_replicate' _ _ v 0 (by omega)

theorem segExists_aux (r : List ℕ) (cols : ℕ) (hr0 : r.getD 0 0 = 0) :
    ∀ w, w ≤ cols → ∀ x, x < r.getD w 0 →
    ∃ v, v < w ∧ r.getD v 0 ≤ x ∧ x < r.getD (v + 1) 0 := by
  intro w
  induction w with
  | zero =>
    intro _ x hx
    rw [hr0] at hx
    omega
  | succ n ih =>
    intro hw x hx
    rcases Nat.lt_or_ge x (r.getD n 0) with h | h
    · obtain ⟨v, hv, h1, h2⟩ := ih (by omega) x h
      exact ⟨v, by omega, h1, h2⟩
    · exact ⟨n, by omega, h, hx⟩

theorem seg_bounds (r : List ℕ) (cols N : ℕ) (hr : r.length = cols + 1)
    (hr0 : r.getD 0 0 = 0)
    (hmono : ∀ v, v < cols → r.getD v 0 ≤ r.getD (v + 1) 0)
    (hrN : r.getD cols 0 = N) (i : ℕ) (hi : i < N) :
    (buildRR r N cols).getD i 0 < cols
    ∧ r.getD ((buildRR r N cols).getD i 0) 0 ≤ i
    ∧ i < r.getD ((buildRR r N cols).getD i 0 + 1) 0 := by
  obtain ⟨v, hv, h1, h2⟩ := segExists_aux r cols hr0 cols (le_refl cols) i
    (by rw [hrN]; exact hi)
  have he := buildRR_getD r cols N hr hr0 hmono hrN v i hv h1 h2
  rw [he]
  exact ⟨hv, h1, h2⟩

theorem buildRR_mono (r : List ℕ) (cols N : ℕ) (hr : r.length = cols + 1)
    (hr0 : r.getD 0 0 = 0)
    (hmono : ∀ v, v < cols → r.getD v 0 ≤ r.getD (v + 1) 0)
    (hrN : r.getD cols 0 = N) (i j : ℕ) (hij : i ≤ j) (hj : j < N) :
    (buildRR r N cols).getD i 0 ≤ (buildRR r N cols).getD j 0 := by
  obtain ⟨hvi, h1i, h2i⟩ := seg_bounds r cols N hr hr0 hmono hrN i (by omega)
  obtain ⟨hvj, h1j, h2j⟩ := seg_bounds r cols N hr hr0 hmono hrN j hj
  by_contra hcon
  have hlt : (buildRR r N cols).getD j 0 + 1 ≤ (buildRR r N cols).getD i 0 :=
    by omega
  have hle : r.getD ((buildRR r N cols).getD j 0 + 1) 0
      ≤ r.getD ((buildRR r N cols).getD i 0) 0 :=
    ptr_mono r cols hmono _ (le_of_lt hvi) _ hlt
  omega

theorem buildRR_count (r : List ℕ) (cols N : ℕ) (hr : r.length = cols + 1)
    (hr0 : r.getD 0 0 = 0)
    (hmono : ∀ v, v < cols → r.getD v 0 ≤ r.getD (v + 1) 0)
    (hrN : r.getD cols 0 = N) (v : ℕ) (hv : v ≤ cols) :
    (buildRR r N cols).countP (fun y => decide (y < v)) = r.getD v 0 := by
  rw [buildRR_eq r cols N hr hr0 hmono hrN, countP_flatMap]
  rw [range_split v (cols + 1) (by omega), List.map_append, List.sum_append]
  have hfirst : ((List.range v).map fun a =>
      (List.replicate (r.getD (a + 1) 0 - r.getD a 0) a).countP
        (fun y => decide (y < v))).sum = r.getD v 0 := by
    have hcong : ∀ a ∈ List.range v,
        (List.replicate (r.getD (a + 1) 0 - r.getD a 0) a).countP
          (fun y => decide (y < v)) = r.getD (a + 1) 0 - r.getD a 0 := by
      intro a ha
      rw [countP_replicate']
      have hav : a < v := List.mem_range.mp ha
      simp [hav]
    rw [List.map_congr_left hcong]
    exact teleSum r cols hr0 hmono v hv
  have hsecond : ((List.range' v (cols + 1 - v)).map fun a =>
      (List.replicate (r.getD (a + 1) 0 - r.getD a 0) a).countP
        (fun y => decide (y < v))).sum = 0 := by
    apply List.sum_eq_zero
    intro x hx
    rw [List.mem_map] at hx
    obtain ⟨a, ha, he⟩ := hx
    have hav : v ≤ a := (List.mem_range'_1.mp ha).1
    rw [← he, countP_replicate']
    have hna : ¬(a < v) := by omega
    simp [hna]
  rw [hfirst, hsecond]
  omega

/-! ## Counting under the slot bijection -/

theorem countP_range_card (M : ℕ) (p : ℕ → Bool) :
    (List.range M).countP p
      = ((Finset.range M).filter (fun x => p x = true)).card := by
  simp [List.countP_eq_length_filter, Finset.filter, Finset.card,
    Finset.range, Multiset.range]

theorem count_reindex (N : ℕ) (sf : ℕ → ℕ)
    (hlt : ∀ i, i < N → sf i < N)
    (hinj : ∀ i, i < N → ∀ j, j < N → sf i = sf j → i = j)
    (hsurj : ∀ x, x < N → ∃ i, i < N ∧ sf i = x) (q : ℕ → Bool) :
    (List.range N).countP (fun j => q j)
      = (List.range N).countP (fun i => q (sf i)) := by
  rw [countP_range_card, countP_range_card]
  refine (Finset.card_bij (fun a _ => sf a) ?_ ?_ ?_).symm
  · intro a ha
    rw [Finset.mem_filter, Finset.mem_range] at ha ⊢
    exact ⟨hlt a ha.1, ha.2⟩
  · intro a₁ ha₁ a₂ ha₂ hab
    rw [Finset.mem_filter, Finset.mem_range] at ha₁ ha₂
    exact hinj a₁ ha₁.1 a₂ ha₂.1 hab
  · intro b hb
    rw [Finset.mem_filter, Finset.mem_range] at hb
    obtain ⟨i, hiN, hib⟩ := hsurj b hb.1
    refine ⟨i, ?_, hib⟩
    rw [Finset.mem_filter, Finset.mem_range]
    exact ⟨hiN, by rw [hib]; exact hb.2⟩

theorem countP_range_lt_extend (a M : ℕ) (p : ℕ → Bool) (h : a ≤ M) :
    (List.range a).countP p
      = (List.range M).countP (fun x => decide (x < a) && p x) := by
  rw [range_split a M h, List.countP_append]
  have h1 : (List.range a).countP (fun x => decide (x < a) && p x)
      = (List.range a).countP p :=
    countP_congr_mem _ _ _ (fun x hx => by
      have hxa : x < a := List.mem_range.mp hx
      simp [hxa])
  have h2 : (List.range' a (M - a)).countP
      (fun x => decide (x < a) && p x) = 0 := by
    rw [List.countP_eq_zero]
    intro x hx
    have hax : a ≤ x := (List.mem_range'_1.mp hx).1
    simp [Nat.not_lt.mpr hax]
  rw [h1, h2]
  omega

theorem countP_range_Ico (M a b : ℕ) (hb : b ≤ M) :
    (List.range M).countP (fun x => decide (a ≤ x) && decide (x < b))
      = b - a := by
  rw [countP_range_card]
  have hset : (Finset.range M).filter
      (fun x => (decide (a ≤ x) && decide (x < b)) = true)
      = Finset.Ico a b := by
    ext x
    simp only [Finset.mem_filter, Finset.mem_range, Finset.mem_Ico,
      Bool.and_eq_true, decide_eq_true_eq]
    omega
  rw [hset, Nat.card_Ico]

/-- Weak sortedness of the index array within each major segment,
propagated from adjacent entries to arbitrary pairs. -/
theorem sorted_extend (r c : List ℕ) (cols N : ℕ) (hr : r.length = cols + 1)
    (hr0 : r.getD 0 0 = 0)
    (hmono : ∀ v, v < cols → r.getD v 0 ≤ r.getD (v + 1) 0)
    (hrN : r.getD cols 0 = N)
    (hsort : ∀ i, i + 1 < N →
      (buildRR r N cols).getD i 0 = (buildRR r N cols).getD (i + 1) 0 →
      c.getD i 0 ≤ c.getD (i + 1) 0) :
    ∀ j, j < N → ∀ i, i ≤ j →
    (buildRR r N cols).getD i 0 = (buildRR r N cols).getD j 0 →
    c.getD i 0 ≤ c.getD j 0 := by
  intro j
  induction j with
  | zero =>
    intro _ i hi _
    have hi0 : i = 0 := by omega
    subst hi0
    exact le_refl _
  | succ n ihj =>
    intro hj i hi hrr
    rcases Nat.lt_or_ge i (n + 1) with h | h
    · have hin : i ≤ n := by omega
      have m1 : (buildRR r N cols).getD i 0 ≤ (buildRR r N cols).getD n 0 :=
        buildRR_mono r cols N hr hr0 hmono hrN i n hin (by omega)
      have m2 : (buildRR r N cols).getD n 0
          ≤ (buildRR r N cols).getD (n + 1) 0 :=
        buildRR_mono r cols N hr hr0 hmono hrN n (n + 1) (by omega) hj
      have e1 : (buildRR r N cols).getD i 0 = (buildRR r N cols).getD n 0 :=
        by omega
      have e2 : (buildRR r N cols).getD n 0
          = (buildRR r N cols).getD (n + 1) 0 := by omega
      exact le_trans (ihj (by omega) i hin e1) (hsort n hj e2)
    · have hie : i = n + 1 := by omega
      subst hie
      exact le_refl _

theorem slot_def (c : List ℕ) (i : ℕ) :
    slot c i = cntLt c (c.getD i 0) + rnk c i := rfl

/-- Counting is invariant under the placement permutation: the permuted
expanded-index array holds the same multiset of values as the original
expansion. -/
theorem count_transport (c r nr : List ℕ) (N cols : ℕ)
    (hc : c.length = N) (hcv : ∀ x ∈ c, x < cols)
    (hr : r.length = cols + 1) (hr0 : r.getD 0 0 = 0)
    (hmono : ∀ v, v < cols → r.getD v 0 ≤ r.getD (v + 1) 0)
    (hrN : r.getD cols 0 = N)
    (hnrlen : nr.length = N)
    (hnrv : ∀ i, i < N → nr.getD (slot c i) 0 = (buildRR r N cols).getD i 0)
    (p : ℕ → Bool) :
    nr.countP p = (buildRR r N cols).countP p := by
  rw [countP_range_getD nr p 0, hnrlen,
    count_reindex N (slot c)
      (fun i hi => by
        have := slot_lt c cols hcv i (by omega)
        omega)
      (fun i hi j hj he => slot_inj c i j (by omega) (by omega) he)
      (fun x hx => by
        have hx' : x < c.length := by omega
        obtain ⟨i, h1, h2⟩ := slot_surj c cols hcv x hx'
        exact ⟨i, by omega, h2⟩)
      (fun j => p (nr.getD j 0))]
  rw [countP_range_getD (buildRR r N cols) p 0,
    buildRR_length r cols N hr hr0 hmono hrN]
  exact countP_congr_mem _ _ _ (fun x hx => by
    rw [hnrv x (List.mem_range.mp hx)])

/-- Applying the placement slot map to a slot of the first pass undoes
it: the second counting sort sends the image of entry `i` back to
position `i`, provided the original index array was weakly sorted within
each major segment. -/
theorem slot_roundtrip (c r nr : List ℕ) (N cols : ℕ)
    (hc : c.length = N) (hcv : ∀ x ∈ c, x < cols)
    (hr : r.length = cols + 1) (hr0 : r.getD 0 0 = 0)
    (hmono : ∀ v, v < cols → r.getD v 0 ≤ r.getD (v + 1) 0)
    (hrN : r.getD cols 0 = N)
    (hsort : ∀ i, i + 1 < N →
      (buildRR r N cols).getD i 0 = (buildRR r N cols).getD (i + 1) 0 →
      c.getD i 0 ≤ c.getD (i + 1) 0)
    (hnrlen : nr.length = N)
    (hnrv : ∀ i, i < N → nr.getD (slot c i) 0 = (buildRR r N cols).getD i 0)
    (i : ℕ) (hi : i < N) :
    slot nr (slot c i) = i := by
  obtain ⟨hvc, hlo, hhi2⟩ := seg_bounds r cols N hr hr0 hmono hrN i hi
  set v := (buildRR r N cols).getD i 0 with hvdef
  have hkey : nr.getD (slot c i) 0 = v := hnrv i hi
  have hsloti : slot c i < N := by
    have := slot_lt c cols hcv i (by omega)
    omega
  have hblt : ∀ a, a < N → slot c a < N := fun a ha => by
    have := slot_lt c cols hcv a (by omega)
    omega
  have hbinj : ∀ a, a < N → ∀ b, b < N → slot c a = slot c b → a = b :=
    fun a ha b hb he => slot_inj c a b (by omega) (by omega) he
  have hbsurj : ∀ x, x < N → ∃ a, a < N ∧ slot c a = x := fun x hx => by
    have hx' : x < c.length := by omega
    obtain ⟨a, h1, h2⟩ := slot_surj c cols hcv x hx'
    exact ⟨a, by omega, h2⟩
  have hrnk : rnk nr (slot c i) = i - r.getD v 0 := by
    unfold rnk
    rw [hkey]
    rw [countP_range_lt_extend (slot c i) N _ (le_of_lt hsloti)]
    rw [count_reindex N (slot c) hblt hbinj hbsurj
      (fun x => decide (x < slot c i) && decide (nr.getD x 0 = v))]
    have hcong : ∀ x ∈ List.range N,
        (decide (slot c x < slot c i) && decide (nr.getD (slot c x) 0 = v))
          = (decide (r.getD v 0 ≤ x) && decide (x < i)) := by
      intro x hx
      have hxN : x < N := List.mem_range.mp hx
      rw [hnrv x hxN, ← Bool.decide_and, ← Bool.decide_and]
      apply decide_eq_decide.mpr
      constructor
      · rintro ⟨hs, he⟩
        have hxi : x < i := by
          rcases (slot_lt_slot_iff c x i (by omega) (by omega)).mp hs
            with hk | ⟨hk, hxi⟩
          · by_contra hcon
            have hge : i ≤ x := by omega
            have := sorted_extend r c cols N hr hr0 hmono hrN hsort x hxN i
              hge (by omega)
            omega
          · exact hxi
        obtain ⟨hvx, hlox, _⟩ := seg_bounds r cols N hr hr0 hmono hrN x hxN
        rw [he] at hlox
        exact ⟨hlox, hxi⟩
      · rintro ⟨hlox, hxi⟩
        have hex : (buildRR r N cols).getD x 0 = v :=
          buildRR_getD r cols N hr hr0 hmono hrN v x hvc hlox (by omega)
        refine ⟨?_, hex⟩
        have hcle : c.getD x 0 ≤ c.getD i 0 :=
          sorted_extend r c cols N hr hr0 hmono hrN hsort i hi x
            (le_of_lt hxi) (by omega)
        rcases Nat.lt_or_ge (c.getD x 0) (c.getD i 0) with hk | hk
        · exact slot_lt_slot_key_lt c x i (by omega) hk (by omega)
        · have hke : c.getD x 0 = c.getD i 0 := by omega
          exact slot_lt_slot_key_eq c x i hxi hke
    rw [countP_congr_mem _ _ _ hcong]
    rw [countP_range_Ico N (r.getD v 0) i (by omega)]
  have hcntv : cntLt nr v = r.getD v 0 := by
    unfold cntLt
    rw [count_transport c r nr N cols hc hcv hr hr0 hmono hrN hnrlen hnrv
      (fun x => decide (x < v))]
    exact buildRR_count r cols N hr hr0 hmono hrN v (le_of_lt hvc)
  rw [slot_def nr (slot c i), hkey, hcntv, hrnk]
  omega

/-- C10 (amended): on a valid CSC triple whose index array is weakly
sorted within each major segment, `csc_csr` is self-inverse: converting
once and applying `csc_csr` to the converted triple recovers the
original data vector, original index pointers and original index array.
Without the sortedness condition the round trip returns the canonically
sorted form of the matrix instead, which may differ from the input. -/
theorem claim_C10 (f : List ℚ) (c r : List ℕ) (N cols : ℕ)
    (hf : f.length = N) (hc : c.length = N) (hr : r.length = cols + 1)
    (hr0 : r.getD 0 0 = 0) (hrN : r.getD cols 0 = N)
    (hmono : ∀ v, v < cols → r.getD v 0 ≤ r.getD (v + 1) 0)
    (hcv : ∀ x ∈ c, x < cols)
    (hsort : ∀ i, i + 1 < N →
      (buildRR r N cols).getD i 0 = (buildRR r N cols).getD (i + 1) 0 →
      c.getD i 0 ≤ c.getD (i + 1) 0) :
    csc_csr (csc_csr f c r N cols).1 (csc_csr f c r N cols).2.2
      (csc_csr f c r N cols).2.1 N cols = (f, r, c) := by
  obtain ⟨s1, s2, s3, s4, s5⟩ := csc_csr_spec f c r N cols hc hcv
  have hA3v : ∀ x ∈ (csc_csr f c r N cols).2.2, x < cols := by
    intro x hx
    obtain ⟨j, hj, he⟩ := mem_getD _ x 0 hx
    rw [s3] at hj
    have hj' : j < c.length := by omega
    obtain ⟨i, hiN, hie⟩ := slot_surj c cols hcv j hj'
    have hiN' : i < N := by omega
    have h2 := (s5 i hiN').2
    rw [hie] at h2
    rw [← he, h2]
    exact (seg_bounds r cols N hr hr0 hmono hrN i hiN').1
  obtain ⟨t1, t2, t3, t4, t5⟩ := csc_csr_spec (csc_csr f c r N cols).1
    (csc_csr f c r N cols).2.2 (csc_csr f c r N cols).2.1 N cols s3 hA3v
  have hnrv : ∀ i, i < N →
      (csc_csr f c r N cols).2.2.getD (slot c i) 0
        = (buildRR r N cols).getD i 0 := fun i hi => (s5 i hi).2
  have hround : ∀ i, i < N →
      slot (csc_csr f c r N cols).2.2 (slot c i) = i := fun i hi =>
    slot_roundtrip c r _ N cols hc hcv hr hr0 hmono hrN hsort s3 hnrv i hi
  have hsltN : ∀ i, i < N → slot c i < N := fun i hi => by
    have := slot_lt c cols hcv i (by omega)
    omega
  have hZ1 : (csc_csr (csc_csr f c r N cols).1 (csc_csr f c r N cols).2.2
      (csc_csr f c r N cols).2.1 N cols).1 = f := by
    apply ext_getD _ _ 0 (by rw [t1, hf])
    intro x hx
    rw [t1] at hx
    have h2 := (t5 (slot c x) (hsltN x hx)).1
    rw [hround x hx] at h2
    rw [h2]
    exact (s5 x hx).1
  have hA2_0 : (csc_csr f c r N cols).2.1.getD 0 0 = 0 := by
    rw [s4 0 (by omega)]
    exact cntLt_zero c
  have hA2mono : ∀ v, v < cols →
      (csc_csr f c r N cols).2.1.getD v 0
        ≤ (csc_csr f c r N cols).2.1.getD (v + 1) 0 := by
    intro v hv
    rw [s4 v (by omega), s4 (v + 1) (by omega)]
    exact cntLt_mono c v (v + 1) (by omega)
  have hA2N : (csc_csr f c r N cols).2.1.getD cols 0 = N := by
    rw [s4 cols (le_refl cols), cntLt_all c cols hcv, hc]
  have hZ3 : (csc_csr (csc_csr f c r N cols).1 (csc_csr f c r N cols).2.2
      (csc_csr f c r N cols).2.1 N cols).2.2 = c := by
    apply ext_getD _ _ 0 (by rw [t3, hc])
    intro x hx
    rw [t3] at hx
    have h2 := (t5 (slot c x) (hsltN x hx)).2
    rw [hround x hx] at h2
    rw [h2]
    have hkx : c.getD x 0 < cols := hcv _ (getD_memN c x 0 (by omega))
    apply buildRR_getD (csc_csr f c r N cols).2.1 cols N s2 hA2_0 hA2mono
      hA2N (c.getD x 0) (slot c x) hkx
    · rw [s4 (c.getD x 0) (le_of_lt hkx)]
      exact Nat.le_add_right _ _
    · rw [s4 (c.getD x 0 + 1) hkx]
      exact slot_lt_cntLt_succ c x (by omega)
  have hZ2 : (csc_csr (csc_csr f c r N cols).1 (csc_csr f c r N cols).2.2
      (csc_csr f c r N cols).2.1 N cols).2.1 = r := by
    apply ext_getD _ _ 0 (by rw [t2, hr])
    intro v hv
    rw [t2] at hv
    rw [t4 v (by omega)]
    unfold cntLt
    rw [count_transport c r _ N cols hc hcv hr hr0 hmono hrN s3 hnrv]
    exact buildRR_count r cols N hr hr0 hmono hrN v (by omega)
  have hZsplit : csc_csr (csc_csr f c r N cols).1 (csc_csr f c r N cols).2.2
      (csc_csr f c r N cols).2.1 N cols
      = ((csc_csr (csc_csr f c r N cols).1 (csc_csr f c r N cols).2.2
          (csc_csr f c r N cols).2.1 N cols).1,
        (csc_csr (csc_csr f c r N cols).1 (csc_csr f c r N cols).2.2
          (csc_csr f c r N cols).2.1 N cols).2.1,
        (csc_csr (csc_csr f c r N cols).1 (csc_csr f c r N cols).2.2
          (csc_csr f c r N cols).2.1 N cols).2.2) := rfl
  rw [hZsplit, hZ1, hZ2, hZ3]

/-- The original C10 claim is false without a sortedness condition: the
valid CSC triple with data `[1, 2]`, index array `[1, 0]` (minor indices
out of order within the first segment) and pointers `[0, 2, 2]` does not
come back to itself after two conversions — the data vector returns
reordered. -/
theorem claim_C10_counterexample :
    (([1, 2] : List ℚ).length = 2 ∧ ([1, 0] : List ℕ).length = 2
      ∧ ([0, 2, 2] : List ℕ).length = 2 + 1
      ∧ ([0, 2, 2] : List ℕ).getD 0 0 = 0
      ∧ ([0, 2, 2] : List ℕ).getD 2 0 = 2
      ∧ (∀ v, v < 2 → ([0, 2, 2] : List ℕ).getD v 0
          ≤ ([0, 2, 2] : List ℕ).getD (v + 1) 0)
      ∧ (∀ x ∈ ([1, 0] : List ℕ), x < 2))
    ∧ csc_csr (csc_csr [1, 2] [1, 0] [0, 2, 2] 2 2).1
        (csc_csr [1, 2] [1, 0] [0, 2, 2] 2 2).2.2
        (csc_csr [1, 2] [1, 0] [0, 2, 2] 2 2).2.1 2 2
      ≠ ([1, 2], [0, 2, 2], [1, 0]) := by
  decide

/-- Evaluation of the amended C10 on a concrete sorted valid triple. -/
theorem claim_C10_witness :
    csc_csr (csc_csr [3, 4] [0, 1] [0, 1, 2] 2 2).1
      (csc_csr [3, 4] [0, 1] [0, 1, 2] 2 2).2.2
      (csc_csr [3, 4] [0, 1] [0, 1, 2] 2 2).2.1 2 2
      = ([3, 4], [0, 1, 2], [0, 1]) :=
  claim_C10 [3, 4] [0, 1] [0, 1, 2] 2 2 (by decide) (by decide) (by decide)
    (by decide) (by decide) (by decide) (by decide)
    (by
      intro i hi
      have hi0 : i = 0 := by omega
      subst hi0
      intro _
      decide)

end Idaklu
